import Mathlib

/-!
# CheckParenthesis: the bracket matcher

A shallow embedding of `src/CheckParenthesis/CheckParenthesis.c`.

* C `int` and `char` values are integers (`Int`).  The only arithmetic on them is
  `scopeCounter++` and `scopeCounter--` on the 32-bit `static int scopeCounter`; both are
  followed by `wrapInt`, the reduction to the range of `int` modulo `2^32`.
* The file behind `pFile` is the list of characters that are still unread; `fgetc`
  takes the head of the list, or yields `EOF` on the empty list.
* The function-level `static int scopeCounter` is threaded through explicitly: every
  function takes the counter it finds and returns the counter it leaves.
* `checkFileHelper` recurses on a stream, so the embedding carries a fuel argument;
  `checkFile` supplies `length + 1`, which is shown to be always enough.
-/

namespace CheckParenthesis

/-! ## Definitions of the source -/

/-- Flag for the valid state, `#define VALID_STATE 0`. -/
def VALID_STATE : Int := 0

/-- Flag for the invalid state, `#define INVALID_STATE 1`. -/
def INVALID_STATE : Int := 1

/-- Start value of the scope counter, `#define INITIAL_SCOPE_NUMBER 0`. -/
def INITIAL_SCOPE_NUMBER : Int := 0

/-- End-of-file value of `<stdio.h>`. -/
def EOF : Int := -1

/-- Round opening glyph, `#define OPEN_ROUND '('`. -/
def OPEN_ROUND : Int := 40

/-- Round closing glyph, `#define CLOSE_ROUND ')'`. -/
def CLOSE_ROUND : Int := 41

/-- Square opening glyph, `#define OPEN_SQUARE '['`. -/
def OPEN_SQUARE : Int := 91

/-- Square closing glyph, `#define CLOSE_SQUARE ']'`. -/
def CLOSE_SQUARE : Int := 93

/-- Triangle opening glyph, `#define OPEN_TRIANGLE '<'`. -/
def OPEN_TRIANGLE : Int := 60

/-- Triangle closing glyph, `#define CLOSE_TRIANGLE '>'`. -/
def CLOSE_TRIANGLE : Int := 62

/-- Curly opening glyph, `#define OPEN_CURLY '{'`. -/
def OPEN_CURLY : Int := 123

/-- Curly closing glyph, `#define CLOSE_CURLY '}'`. -/
def CLOSE_CURLY : Int := 125

/-- Conversion of an `int` to a (signed, 8 bit) `char`, as in `(char) currentChar` and in
passing `EOF` for the `char const currentType` parameter. -/
def toChar (x : Int) : Int := (x + 128) % 256 - 128

/-- Smallest `int`. -/
def INT_MIN : Int := -2147483648

/-- Largest `int`. -/
def INT_MAX : Int := 2147483647

/-- Reduction of an integer to the range of `int`, modulo `2^32`: the value `scopeCounter`
holds after `++` or `--`. -/
def wrapInt (x : Int) : Int := (x + 2147483648) % 4294967296 - 2147483648

/-- The C function `checkMatchingParenthesis(close, open)`: a `switch` on `close` with one
case for each closing glyph and a `default` that returns `INVALID_STATE`. -/
def checkMatchingParenthesis (close : Int) (open_ : Int) : Int :=
  if close = CLOSE_ROUND then
    if open_ ≠ OPEN_ROUND then INVALID_STATE else VALID_STATE
  else if close = CLOSE_SQUARE then
    if open_ ≠ OPEN_SQUARE then INVALID_STATE else VALID_STATE
  else if close = CLOSE_TRIANGLE then
    if open_ ≠ OPEN_TRIANGLE then INVALID_STATE else VALID_STATE
  else if close = CLOSE_CURLY then
    if open_ ≠ OPEN_CURLY then INVALID_STATE else VALID_STATE
  else INVALID_STATE

/-- What a call of `checkFileHelper` yields: the returned `int`, the unread rest of the
file, and the value of the static `scopeCounter` at the return. -/
abbrev Outcome := Int × List Char × Int

/-- The C function `checkFileHelper(currentType, pFile)` with the static `scopeCounter`
passed in and out.  One unfolding is one evaluation of the `while` condition and, unless
the stream is at its end, one pass through the loop body:

* `fgetc` on the empty stream gives `EOF`; the function returns by the test
  `scopeCounter == INITIAL_SCOPE_NUMBER`;
* the `if / else if` chain on the four opening glyphs increments the counter (an `int`,
  so modulo `2^32`) and calls `checkFileHelper` with that glyph, throwing the returned
  value away;
* the following `if` on the four closing glyphs returns, decrementing the counter only
  when `checkMatchingParenthesis` answers 0;
* otherwise the loop goes round again.

`none` means the fuel ran out. -/
def checkFileHelper : Nat → Int → List Char → Int → Option Outcome
  | 0, _, _, _ => none
  | fuel + 1, currentType, pFile, scopeCounter =>
    match pFile with
    | [] =>
      if scopeCounter = INITIAL_SCOPE_NUMBER then some (VALID_STATE, [], scopeCounter)
      else some (INVALID_STATE, [], scopeCounter)
    | c :: rest =>
      let currentChar : Int := (c.toNat : Int)
      let afterOpen : Option (List Char × Int) :=
        if currentChar = OPEN_ROUND then
          (checkFileHelper fuel OPEN_ROUND rest (wrapInt (scopeCounter + 1))).map
            (fun r => r.2)
        else if currentChar = OPEN_SQUARE then
          (checkFileHelper fuel OPEN_SQUARE rest (wrapInt (scopeCounter + 1))).map
            (fun r => r.2)
        else if currentChar = OPEN_TRIANGLE then
          (checkFileHelper fuel OPEN_TRIANGLE rest (wrapInt (scopeCounter + 1))).map
            (fun r => r.2)
        else if currentChar = OPEN_CURLY then
          (checkFileHelper fuel OPEN_CURLY rest (wrapInt (scopeCounter + 1))).map
            (fun r => r.2)
        else some (rest, scopeCounter)
      match afterOpen with
      | none => none
      | some (pFile1, scopeCounter1) =>
        if currentChar = CLOSE_ROUND ∨ currentChar = CLOSE_SQUARE ∨
            currentChar = CLOSE_TRIANGLE ∨ currentChar = CLOSE_CURLY then
          if checkMatchingParenthesis (toChar currentChar) currentType = 0 then
            some (VALID_STATE, pFile1, wrapInt (scopeCounter1 - 1))
          else
            some (INVALID_STATE, pFile1, scopeCounter1)
        else
          checkFileHelper fuel currentType pFile1 scopeCounter1

/-- The C function `checkFile(pFile)`: `return checkFileHelper(EOF, pFile);`, entered with
the static counter at `scopeCounter`. -/
def checkFile (pFile : List Char) (scopeCounter : Int) : Option Outcome :=
  checkFileHelper (pFile.length + 1) (toChar EOF) pFile scopeCounter

/-- The `int` a call returned, if it returned. -/
def verdict (r : Option Outcome) : Option Int := r.map (fun o => o.1)

/-- The value of the static `scopeCounter` a call left behind, if it returned. -/
def counterAfter (r : Option Outcome) : Option Int := r.map (fun o => o.2.2)

/-- Two invocations of `checkFile` in one process, first on `a` with the counter at its
initial value, then on `b` with the counter as the first invocation left it.  The result
is the outcome of the second invocation. -/
def checkFileAfter (a b : List Char) : Option Outcome :=
  (checkFile a INITIAL_SCOPE_NUMBER).bind (fun o => checkFile b o.2.2)

/-! ## The matcher as the specification words it -/

/-- Bracket kind of the specification's data model. -/
inductive Kind where
  | Round
  | Square
  | Triangle
  | Curly
  deriving DecidableEq, Repr

/-- The opening glyph of a kind. -/
def openGlyph : Kind → Char
  | Kind.Round => '('
  | Kind.Square => '['
  | Kind.Triangle => '<'
  | Kind.Curly => '{'

/-- The closing glyph of a kind. -/
def closeGlyph : Kind → Char
  | Kind.Round => ')'
  | Kind.Square => ']'
  | Kind.Triangle => '>'
  | Kind.Curly => '}'

/-- The kind a character opens, if it is an opening glyph. -/
def openKind (c : Char) : Option Kind :=
  if c = '(' then some Kind.Round
  else if c = '[' then some Kind.Square
  else if c = '<' then some Kind.Triangle
  else if c = '{' then some Kind.Curly
  else none

/-- The kind a character closes, if it is a closing glyph. -/
def closeKind (c : Char) : Option Kind :=
  if c = ')' then some Kind.Round
  else if c = ']' then some Kind.Square
  else if c = '>' then some Kind.Triangle
  else if c = '}' then some Kind.Curly
  else none

/-- Whether a character is one of the eight bracket glyphs. -/
def isGlyph (c : Char) : Bool := (openKind c).isSome || (closeKind c).isSome

/-- The `int` that `fgetc` yields for the opening glyph of a kind. -/
def openCode (k : Kind) : Int := ((openGlyph k).toNat : Int)

/-! ## A call of `checkFileHelper` without recursion -/

/-- A call of `checkFileHelper(currentType, pFile)` written as one loop over the stream:
`nested` holds the `currentType` of the calls that the call has entered and not yet left,
innermost first, and `scopeCounter` the static counter.  An opening glyph enters a call; a
closing glyph leaves the innermost one, decrementing the counter when it matches, and ends
the whole run when no nested call is left; at the end of the stream every call returns by
the test on the counter, which none of them changes.  `callRun_eq` shows that this is what
`checkFileHelper` returns. -/
def callRun (currentType : Int) : List Int → Int → List Char → Outcome
  | _, scopeCounter, [] =>
    (if scopeCounter = 0 then VALID_STATE else INVALID_STATE, [], scopeCounter)
  | nested, scopeCounter, ch :: rest =>
    match openKind ch with
    | some k => callRun currentType (openCode k :: nested) (wrapInt (scopeCounter + 1)) rest
    | none =>
      match closeKind ch with
      | some k =>
        match nested with
        | [] =>
          if currentType = openCode k then (VALID_STATE, rest, wrapInt (scopeCounter - 1))
          else (INVALID_STATE, rest, scopeCounter)
        | y :: below =>
          callRun currentType below
            (if y = openCode k then wrapInt (scopeCounter - 1) else scopeCounter) rest
      | none => callRun currentType nested scopeCounter rest

/-- The nested calls and the counter at the end of the stream, for the call made by
`checkFile`; `none` when a closing glyph arrives while no nested call is active, on which
the call returns `INVALID_STATE`. -/
def scanAll : List Int → Int → List Char → Option (List Int × Int)
  | nested, scopeCounter, [] => some (nested, scopeCounter)
  | nested, scopeCounter, ch :: rest =>
    match openKind ch with
    | some k => scanAll (openCode k :: nested) (wrapInt (scopeCounter + 1)) rest
    | none =>
      match closeKind ch with
      | some k =>
        match nested with
        | [] => none
        | y :: below =>
          scanAll below (if y = openCode k then wrapInt (scopeCounter - 1) else scopeCounter)
            rest
      | none => scanAll nested scopeCounter rest

/-- The number of opening glyphs in a stream. -/
def openers (s : List Char) : Nat := s.countP (fun c => (openKind c).isSome)

/-- The stream that repeats the mismatched pair `(]` the given number of times. -/
def mismatchedPairs : Nat → List Char
  | 0 => []
  | n + 1 => '(' :: ']' :: mismatchedPairs n

/-! ## The program around `checkFile` -/

/-- The `int` value of a character constant. -/
def charCode (c : Char) : Int := (c.toNat : Int)

/-- Number of arguments the program wants, `#define VALID_ARGUMENTS_NUMBER 2`. -/
def VALID_ARGUMENTS_NUMBER : Nat := 2

/-- Index of the file name among the arguments, `#define FILE_NAME_INDEX 1`. -/
def FILE_NAME_INDEX : Nat := 1

/-- Message for a wrong number of arguments, `#define INVALID_ARGUMENTS_MESSAGE`. -/
def INVALID_ARGUMENTS_MESSAGE : String :=
  "Please supply a file!\nusage: CheckParenthesis <filename>\n"

/-- Message for a file that cannot be opened, `#define INVALID_FILE_ARGUMENTS_MESSAGE`
with its `%s` filled in. -/
def INVALID_FILE_ARGUMENTS_MESSAGE (name : String) : String :=
  "Error! trying to open the file " ++ name ++ "\n"

/-- Message for a valid file, `#define VALID_FILE "ok\n"`. -/
def VALID_FILE : String := "ok\n"

/-- Message for an invalid file, `#define INVALID_FILE "bad structure\n"`. -/
def INVALID_FILE : String := "bad structure\n"

/-- What a run of the program leaves behind: the text written to standard output, the
text written to standard error, and the value `main` returned.  The status is `none` when
`main` reaches a call whose behaviour C leaves undefined before it can return. -/
structure Process where
  stdout : String
  stderr : String
  status : Option Int
  deriving DecidableEq, Repr

/-- The C function `analyzeResults(checkFileResult)`: `printf(VALID_FILE)` when
`!(checkFileResult)`, else `printf(INVALID_FILE)`.  The result is the text printed. -/
def analyzeResults (checkFileResult : Int) : String :=
  if checkFileResult = 0 then VALID_FILE else INVALID_FILE

/-- The C function `main(argc, argv)`.  `argv` is the argument vector (`argc` is its
length) and `fopen` tells, for a file name, the contents of the file when it can be opened
for reading and `none` when `fopen` returns 0.

* `argc != VALID_ARGUMENTS_NUMBER`: the usage message goes to standard error and `main`
  returns `INVALID_STATE`.
* `pFile == 0`: the message naming the file goes to standard error; the next statement is
  `fclose(pFile)` on the null pointer, whose behaviour is undefined (C11 7.1.4), so the
  `return INVALID_STATE` behind it is not reached with a defined status.
* otherwise `checkFile` runs, on the static counter of a fresh process, `analyzeResults`
  prints the verdict and `main` returns `VALID_STATE`.

The outer `none` means `checkFile` ran out of fuel. -/
def main (argv : List String) (fopen : String → Option (List Char)) : Option Process :=
  if argv.length ≠ VALID_ARGUMENTS_NUMBER then
    some { stdout := "", stderr := INVALID_ARGUMENTS_MESSAGE, status := some INVALID_STATE }
  else
    match fopen (argv.getD FILE_NAME_INDEX "") with
    | none =>
      some { stdout := "",
             stderr := INVALID_FILE_ARGUMENTS_MESSAGE (argv.getD FILE_NAME_INDEX ""),
             status := none }
    | some contents =>
      match checkFile contents INITIAL_SCOPE_NUMBER with
      | none => none
      | some (checkFileResult, _, _) =>
        some { stdout := analyzeResults checkFileResult, stderr := "",
               status := some VALID_STATE }

/-! ## The points of a run of `checkFile` -/

/-- A point of a run of `checkFile`, between two calls of `fgetc`.

* `frames` holds the `currentType` of every call of `checkFileHelper` that is active,
  innermost first; its last element belongs to the call made by `checkFile`, the others to
  nested calls.  When it is empty, `checkFile` has returned.
* `scopeCounter` is the static counter and `pFile` the unread rest of the file.
* `returned` is the value returned by the call that returned last.
* `consumed`, `mismatched` and `endReturns` only observe the run: the characters read so
  far, the number of nested calls that returned on a closing glyph that does not match
  their `currentType`, and the number of nested calls that returned at the end of the
  file. -/
structure Config where
  frames : List Int
  scopeCounter : Int
  pFile : List Char
  returned : Option Int
  consumed : List Char
  mismatched : Nat
  endReturns : Nat
  deriving DecidableEq, Repr

/-- The return of the innermost call with the value `value`: its frame is dropped, and the
caller, which throws the value away and whose own `currentChar` is an opening glyph, is
back at the head of its loop. -/
def Config.leave (c : Config) (callers : List Int) (value : Int) : Config :=
  { c with frames := callers, returned := some value }

/-- One pass through the loop of the innermost active call of `checkFileHelper`: the same
case distinction as in `checkFileHelper`, with the recursive call replaced by a new frame
and every `return` by the drop of a frame.  `none` when `checkFile` has returned. -/
def step (c : Config) : Option Config :=
  match c.frames with
  | [] => none
  | currentType :: callers =>
    match c.pFile with
    | [] =>
      some { c.leave callers
               (if c.scopeCounter = INITIAL_SCOPE_NUMBER then VALID_STATE else INVALID_STATE)
             with endReturns := c.endReturns + (if callers = [] then 0 else 1) }
    | ch :: rest =>
      let currentChar : Int := (ch.toNat : Int)
      let read : Config := { c with pFile := rest, consumed := c.consumed ++ [ch] }
      if currentChar = OPEN_ROUND then
        some { read with frames := OPEN_ROUND :: c.frames,
                         scopeCounter := wrapInt (c.scopeCounter + 1) }
      else if currentChar = OPEN_SQUARE then
        some { read with frames := OPEN_SQUARE :: c.frames,
                         scopeCounter := wrapInt (c.scopeCounter + 1) }
      else if currentChar = OPEN_TRIANGLE then
        some { read with frames := OPEN_TRIANGLE :: c.frames,
                         scopeCounter := wrapInt (c.scopeCounter + 1) }
      else if currentChar = OPEN_CURLY then
        some { read with frames := OPEN_CURLY :: c.frames,
                         scopeCounter := wrapInt (c.scopeCounter + 1) }
      else if currentChar = CLOSE_ROUND ∨ currentChar = CLOSE_SQUARE ∨
          currentChar = CLOSE_TRIANGLE ∨ currentChar = CLOSE_CURLY then
        if checkMatchingParenthesis (toChar currentChar) currentType = 0 then
          some { read.leave callers VALID_STATE
                 with scopeCounter := wrapInt (c.scopeCounter - 1) }
        else
          some { read.leave callers INVALID_STATE
                 with mismatched := c.mismatched + (if callers = [] then 0 else 1) }
      else some read

/-- The point a run is at after the given number of passes, if it takes that many. -/
def runSteps : Nat → Config → Option Config
  | 0, c => some c
  | n + 1, c => (step c).bind (runSteps n)

/-- The point at which `checkFile` enters `checkFileHelper(EOF, pFile)` in a fresh process. -/
def start (s : List Char) : Config :=
  { frames := [toChar EOF], scopeCounter := INITIAL_SCOPE_NUMBER, pFile := s,
    returned := none, consumed := [], mismatched := 0, endReturns := 0 }

/-- The number of nested calls of `checkFileHelper` that are active at a point. -/
def activeNested (c : Config) : Nat := c.frames.length - 1

/-- One character of the specification's algorithm on its open-stack; `none` once the
algorithm has stopped with `Invalid`. -/
def specStackStep (stack : Option (List Kind)) (c : Char) : Option (List Kind) :=
  match stack with
  | none => none
  | some st =>
    match openKind c with
    | some k => some (k :: st)
    | none =>
      match closeKind c with
      | some k =>
        match st with
        | [] => none
        | t :: below => if t ≠ k then none else some below
      | none => some st

/-- The open-stack of the specification's algorithm after the given characters, `none`
when the algorithm has rejected them. -/
def specStackAfter (p : List Char) : Option (List Kind) :=
  p.foldl specStackStep (some [])

/-- What holds at every point of the run of `checkFile` on the file `s`:

* the frames are those of nested calls entered for opening glyphs, on top of the call made
  by `checkFile`, unless `checkFile` has returned;
* the counter is, modulo `2^32`, the number of active nested calls plus the number of
  nested calls that have returned without a matching closing glyph, on a mismatched one or
  at the end of the file, and that number is at most the number of opening glyphs read;
* no nested call has returned at the end of the file while characters are left;
* the characters read and the characters left make up the file;
* as long as the specification's algorithm has not rejected the characters read and
  `checkFile` has not returned, the counter is, modulo `2^32`, the size of the open-stack,
  and, before the end of the file, the frames of the nested calls are the open-stack. -/
def RunInvariant (s : List Char) (c : Config) : Prop :=
  (c.frames = [] ∨ ∃ ks : List Kind, c.frames = ks.map openCode ++ [toChar EOF]) ∧
  c.scopeCounter =
    wrapInt ((activeNested c : Int) + (c.mismatched : Int) + (c.endReturns : Int)) ∧
  activeNested c + c.mismatched + c.endReturns ≤ openers c.consumed ∧
  (c.pFile ≠ [] → c.endReturns = 0) ∧
  c.consumed ++ c.pFile = s ∧
  (∀ st, specStackAfter c.consumed = some st → c.frames ≠ [] →
    c.scopeCounter = wrapInt (st.length : Int) ∧
    (c.endReturns = 0 → c.frames = st.map openCode ++ [toChar EOF]))

end CheckParenthesis

/-!
# ChangeBase: conversion between bases

A shallow embedding of `src/ChangeBase/ChangeBase.c`.

* An `int` is an integer between `INT_MIN` and `INT_MAX` (32 bits).  Addition and
  multiplication are followed by `wrapInt`, the reduction to that range modulo `2^32`;
  `%` and `/` are the truncating `Int.tmod` and `Int.tdiv` of C.
* `char result[MAX_RESULT_SIZE + 1]` is a list of 21 `char` values; a store or a load
  outside the list ends the run with `Exec.outOfBounds`, a division by zero with
  `Exec.arithmeticFault`.
* Loops carry a fuel argument; `Exec.outOfFuel` means it ran out.
-/

namespace ChangeBase

/-- Flag for the valid state, `#define VALID_STATE 0`. -/
def VALID_STATE : Int := 0

/-- Flag for the invalid state, `#define INVALID_STATE 1`. -/
def INVALID_STATE : Int := 1

/-- The usual base, `#define STANDARD_BASE 10`. -/
def STANDARD_BASE : Int := 10

/-- Flag for a true statement, `#define TRUE 1`. -/
def TRUE : Int := 1

/-- Flag for a false statement, `#define FALSE 0`. -/
def FALSE : Int := 0

/-- Maximum number of digits of a result, `#define MAX_RESULT_SIZE 20`. -/
def MAX_RESULT_SIZE : Nat := 20

/-- Message for invalid user input, `#define INVALID_INPUT_MESSAGE "invalid!!\n"`. -/
def INVALID_INPUT_MESSAGE : String := "invalid!!\n"

/-- Smallest `int`. -/
def INT_MIN : Int := -2147483648

/-- Largest `int`. -/
def INT_MAX : Int := 2147483647

/-- Reduction of an integer to the range of `int`, modulo `2^32`. -/
def wrapInt (x : Int) : Int := (x + 2147483648) % 4294967296 - 2147483648

/-- Conversion of an `int` to a (signed, 8 bit) `char`, as in `(char)(currentDigit + '0')`. -/
def toChar (x : Int) : Int := (x + 128) % 256 - 128

/-- The character `printf("%c", ...)` writes for a `char` value. -/
def byteChar (v : Int) : Char := Char.ofNat (v % 256).toNat

/-- How a computation ends: with a value, or in a division the machine cannot do, or in an
access outside the array, or because the fuel of the embedding ran out. -/
inductive Exec (α : Type) where
  | done (value : α)
  | arithmeticFault
  | outOfBounds
  | outOfFuel
  deriving DecidableEq, Repr

/-- Sequencing: the second computation runs on the value of the first. -/
def Exec.andThen {α β : Type} (x : Exec α) (f : α → Exec β) : Exec β :=
  match x with
  | Exec.done a => f a
  | Exec.arithmeticFault => Exec.arithmeticFault
  | Exec.outOfBounds => Exec.outOfBounds
  | Exec.outOfFuel => Exec.outOfFuel

/-- The C function `power(base, degree)`: 1 for degree 0, else
`power(base, degree - 1) * base`.  The degree is a natural number: the only caller passes
the loop index 0, 1, 2, ... -/
def power (base : Int) : Nat → Int
  | 0 => 1
  | degree + 1 => wrapInt (power base degree * base)

/-- The `while (number != 0)` loop of `decimalConverter`, entered with the current values
of `number`, `result` and `index`. -/
def decimalConverterLoop (originalBase : Int) : Nat → Int → Int → Nat → Exec Int
  | 0, _, _, _ => Exec.outOfFuel
  | fuel + 1, number, result, index =>
    if number ≠ 0 then
      let currentDigit : Int := Int.tmod number STANDARD_BASE
      decimalConverterLoop originalBase fuel (Int.tdiv number STANDARD_BASE)
        (wrapInt (result + wrapInt (currentDigit * power originalBase index))) (index + 1)
    else Exec.done result

/-- The C function `decimalConverter(originalBase, number)`. -/
def decimalConverter (originalBase number : Int) : Exec Int :=
  decimalConverterLoop originalBase (number.natAbs + 1) number 0 0

/-- The `while (number != 0)` loop of `baseConverterHelper`, entered with the current
values of `number`, of the array behind `result` and of `index`.  `number % newBase` has
no defined value for `newBase == 0`, nor for `INT_MIN` and -1. -/
def baseConverterHelperLoop (newBase : Int) : Nat → Int → List Int → Nat → Exec (List Int)
  | 0, _, _, _ => Exec.outOfFuel
  | fuel + 1, number, result, index =>
    if number ≠ 0 then
      if newBase = 0 ∨ (number = INT_MIN ∧ newBase = -1) then Exec.arithmeticFault
      else
        let currentDigit : Int := Int.tmod number newBase
        if index < result.length then
          baseConverterHelperLoop newBase fuel (Int.tdiv number newBase)
            (result.set index (toChar (currentDigit + 48))) (index + 1)
        else Exec.outOfBounds
    else Exec.done result

/-- The C function `baseConverterHelper(newBase, number, result)`; the value is the array
behind `result` when the function returns.  Every pass through the loop stores at the next
index, so one unit of fuel for each element of the array and one more are enough. -/
def baseConverterHelper (newBase number : Int) (result : List Int) : Exec (List Int) :=
  baseConverterHelperLoop newBase (result.length + 1) number result 0

/-- The C function `baseConverter(originalBase, newBase, number, result)`. -/
def baseConverter (originalBase newBase number : Int) (result : List Int) :
    Exec (List Int) :=
  (decimalConverter originalBase number).andThen
    (fun baseTenNumber => baseConverterHelper newBase baseTenNumber result)

/-- The `while (number != 0)` loop of `checkInput`. -/
def checkInputLoop (originalBase : Int) : Nat → Int → Exec Int
  | 0, _ => Exec.outOfFuel
  | fuel + 1, number =>
    if number ≠ 0 then
      let currentDigit : Int := Int.tmod number STANDARD_BASE
      if currentDigit ≥ originalBase then Exec.done FALSE
      else checkInputLoop originalBase fuel (Int.tdiv number STANDARD_BASE)
    else Exec.done TRUE

/-- The C function `checkInput(originalBase, number)`. -/
def checkInput (originalBase number : Int) : Exec Int :=
  checkInputLoop originalBase (number.natAbs + 1) number

/-- The first loop of `printResult`, `while (result[i] != 0) i++`, on the part of the
array from index `i` on: the index of the first zero, unless the loop leaves the array. -/
def terminatorIndex : List Int → Nat → Exec Nat
  | [], _ => Exec.outOfBounds
  | x :: xs, i => if x ≠ 0 then terminatorIndex xs (i + 1) else Exec.done i

/-- The second loop of `printResult`, `for ( ; i >= 0; --i) printf("%c", result[i])`,
entered with `i + 1` equal to the given count. -/
def printBackwards (result : List Int) : Nat → List Char
  | 0 => []
  | i + 1 => byteChar (result.getD i 0) :: printBackwards result i

/-- The C function `printResult(result)`; the value is the text written to standard
output. -/
def printResult (result : List Int) : Exec String :=
  (terminatorIndex result 0).andThen
    (fun i => Exec.done (String.mk (printBackwards result i ++ ['\n'])))

/-- The array `char result[MAX_RESULT_SIZE + 1] = {}` of `main`. -/
def emptyResult : List Int := List.replicate (MAX_RESULT_SIZE + 1) 0

/-- What a run of the program leaves behind: the text written to standard output, the
text written to standard error, and the value `main` returned. -/
structure Output where
  stdout : String
  stderr : String
  status : Int
  deriving DecidableEq, Repr

/-- The C function `main()`, entered with the three values `scanf` stored in
`originalBase`, `newBase` and `number`. -/
def main (originalBase newBase number : Int) : Exec Output :=
  if number = 0 then
    Exec.done { stdout := toString number ++ "\n", stderr := "", status := VALID_STATE }
  else
    (checkInput originalBase number).andThen (fun accepted =>
      if accepted ≠ 0 then
        (baseConverter originalBase newBase number emptyResult).andThen (fun result =>
          (printResult result).andThen (fun printed =>
            Exec.done { stdout := printed, stderr := "", status := VALID_STATE }))
      else
        Exec.done { stdout := "", stderr := INVALID_INPUT_MESSAGE, status := INVALID_STATE })

/-! ## Numerals -/

/-- The value of a digit string, least significant digit first, read in base `b` with the
first digit at position `i`: the sum of `d * b ^ position`. -/
def numeralValueFrom (b : Int) : Nat → List Nat → Int
  | _, [] => 0
  | i, d :: ds => (d : Int) * b ^ i + numeralValueFrom b (i + 1) ds

/-- The value of a digit string, least significant digit first, read in base `b`. -/
def numeralValue (b : Int) (ds : List Nat) : Int := numeralValueFrom b 0 ds

/-- The decimal digits of a natural number, least significant first, by repeated division;
the first argument bounds the number of digits produced. -/
def decimalDigitsAux : Nat → Nat → List Nat
  | 0, _ => []
  | fuel + 1, n => if n = 0 then [] else (n % 10) :: decimalDigitsAux fuel (n / 10)

/-- The decimal digits of a number that is not negative, least significant first; the
number 0 has none, as in the loops of the source. -/
def decimalDigits (number : Int) : List Nat := decimalDigitsAux number.toNat number.toNat

end ChangeBase

namespace CheckParenthesis

theorem toNat_eq_imp (c : Char) (n : Nat) (h : (c.toNat : Int) = (n : Int)) :
    c = Char.ofNat n := by
  have h1 : c.toNat = n := by exact_mod_cast h
  rw [← h1, Char.ofNat_toNat]

theorem char_cases (c : Char) :
    (∃ k, c = openGlyph k) ∨ (∃ k, c = closeGlyph k) ∨ isGlyph c = false := by
  by_cases h1 : c = '('
  · exact Or.inl ⟨Kind.Round, h1⟩
  by_cases h2 : c = '['
  · exact Or.inl ⟨Kind.Square, h2⟩
  by_cases h3 : c = '<'
  · exact Or.inl ⟨Kind.Triangle, h3⟩
  by_cases h4 : c = '{'
  · exact Or.inl ⟨Kind.Curly, h4⟩
  by_cases h5 : c = ')'
  · exact Or.inr (Or.inl ⟨Kind.Round, h5⟩)
  by_cases h6 : c = ']'
  · exact Or.inr (Or.inl ⟨Kind.Square, h6⟩)
  by_cases h7 : c = '>'
  · exact Or.inr (Or.inl ⟨Kind.Triangle, h7⟩)
  by_cases h8 : c = '}'
  · exact Or.inr (Or.inl ⟨Kind.Curly, h8⟩)
  · right; right
    simp [isGlyph, openKind, closeKind, h1, h2, h3, h4, h5, h6, h7, h8]

theorem not_glyph_codes (c : Char) (h : isGlyph c = false) :
    (c.toNat : Int) ≠ OPEN_ROUND ∧ (c.toNat : Int) ≠ OPEN_SQUARE ∧
    (c.toNat : Int) ≠ OPEN_TRIANGLE ∧ (c.toNat : Int) ≠ OPEN_CURLY ∧
    (c.toNat : Int) ≠ CLOSE_ROUND ∧ (c.toNat : Int) ≠ CLOSE_SQUARE ∧
    (c.toNat : Int) ≠ CLOSE_TRIANGLE ∧ (c.toNat : Int) ≠ CLOSE_CURLY := by
  refine ⟨?_, ?_, ?_, ?_, ?_, ?_, ?_, ?_⟩ <;>
  · intro hc
    have := toNat_eq_imp c _ hc
    subst this
    revert h
    decide

theorem helper_nil (fuel : Nat) (t sc : Int) :
    checkFileHelper (fuel + 1) t [] sc =
      some (if sc = 0 then VALID_STATE else INVALID_STATE, [], sc) := by
  by_cases h : sc = 0 <;> simp [checkFileHelper, INITIAL_SCOPE_NUMBER, h]

theorem helper_other (fuel : Nat) (t sc : Int) (c : Char) (rest : List Char)
    (h : isGlyph c = false) :
    checkFileHelper (fuel + 1) t (c :: rest) sc = checkFileHelper fuel t rest sc := by
  obtain ⟨h1, h2, h3, h4, h5, h6, h7, h8⟩ := not_glyph_codes c h
  simp [checkFileHelper, h1, h2, h3, h4, h5, h6, h7, h8]

theorem glyph_codes :
    '('.toNat = 40 ∧ '['.toNat = 91 ∧ '<'.toNat = 60 ∧ '{'.toNat = 123 ∧
    ')'.toNat = 41 ∧ ']'.toNat = 93 ∧ '>'.toNat = 62 ∧ '}'.toNat = 125 := by
  decide

theorem helper_open (fuel : Nat) (t sc : Int) (k : Kind) (rest : List Char) :
    checkFileHelper (fuel + 1) t (openGlyph k :: rest) sc =
      (checkFileHelper fuel (openCode k) rest (wrapInt (sc + 1))).bind
        (fun o => checkFileHelper fuel t o.2.1 o.2.2) := by
  obtain ⟨h1, h2, h3, h4, -, -, -, -⟩ := glyph_codes
  cases k <;>
  · simp only [checkFileHelper, openGlyph, openCode, OPEN_ROUND, OPEN_SQUARE, OPEN_TRIANGLE,
      OPEN_CURLY, CLOSE_ROUND, CLOSE_SQUARE, CLOSE_TRIANGLE, CLOSE_CURLY, h1, h2, h3, h4]
    norm_num
    cases checkFileHelper fuel _ rest (wrapInt (sc + 1)) <;> rfl

theorem helper_close (fuel : Nat) (t sc : Int) (k : Kind) (rest : List Char) :
    checkFileHelper (fuel + 1) t (closeGlyph k :: rest) sc =
      if t = openCode k then some (VALID_STATE, rest, wrapInt (sc - 1))
      else some (INVALID_STATE, rest, sc) := by
  obtain ⟨h1, h2, h3, h4, h5, h6, h7, h8⟩ := glyph_codes
  cases k <;>
  · simp only [checkFileHelper, closeGlyph, openGlyph, openCode, OPEN_ROUND, OPEN_SQUARE,
      OPEN_TRIANGLE, OPEN_CURLY, CLOSE_ROUND, CLOSE_SQUARE, CLOSE_TRIANGLE, CLOSE_CURLY,
      checkMatchingParenthesis, toChar, h1, h2, h3, h4, h5, h6, h7, h8]
    norm_num
    split_ifs <;> simp_all [VALID_STATE, INVALID_STATE]

/-! ## One step of the specification's algorithm, by class of the character read -/

theorem eofChar_ne_openCode (k : Kind) : toChar EOF ≠ openCode k := by
  cases k <;> decide

/-! ## The classes of characters -/

theorem openKind_openGlyph (k : Kind) : openKind (openGlyph k) = some k := by
  cases k <;> rfl

theorem openKind_closeGlyph (k : Kind) : openKind (closeGlyph k) = none := by
  cases k <;> rfl

theorem closeKind_closeGlyph (k : Kind) : closeKind (closeGlyph k) = some k := by
  cases k <;> rfl

theorem kinds_of_not_glyph (c : Char) (h : isGlyph c = false) :
    openKind c = none ∧ closeKind c = none := by
  simp only [isGlyph, Bool.or_eq_false_iff] at h
  constructor
  · cases ho : openKind c with
    | none => rfl
    | some k => rw [ho] at h; exact absurd h.1 (by simp)
  · cases hc : closeKind c with
    | none => rfl
    | some k => rw [hc] at h; exact absurd h.2 (by simp)

/-! ## Arithmetic of the counter -/

theorem counter_wrap_id (x : Int) (h1 : INT_MIN ≤ x) (h2 : x ≤ INT_MAX) : wrapInt x = x := by
  unfold wrapInt
  unfold INT_MIN at h1
  unfold INT_MAX at h2
  omega

theorem counter_wrap_range (x : Int) : INT_MIN ≤ wrapInt x ∧ wrapInt x ≤ INT_MAX := by
  unfold wrapInt INT_MIN INT_MAX
  omega

theorem counter_wrap_add (x y : Int) : wrapInt (wrapInt x + y) = wrapInt (x + y) := by
  unfold wrapInt
  omega

theorem counter_wrap_sub (x y : Int) : wrapInt (wrapInt x - y) = wrapInt (x - y) := by
  unfold wrapInt
  omega

/-- A count below `2^31` is an `int`. -/
theorem counter_wrap_count (n : Nat) (h : n < 2147483648) : wrapInt (n : Int) = (n : Int) := by
  unfold wrapInt
  omega

theorem callRun_nil (t : Int) (nested : List Int) (c : Int) :
    callRun t nested c [] = (if c = 0 then VALID_STATE else INVALID_STATE, [], c) := by
  simp [callRun]

theorem callRun_open (t : Int) (nested : List Int) (c : Int) (k : Kind) (rest : List Char) :
    callRun t nested c (openGlyph k :: rest) =
      callRun t (openCode k :: nested) (wrapInt (c + 1)) rest := by
  simp [callRun, openKind_openGlyph]

theorem callRun_close_nil (t : Int) (c : Int) (k : Kind) (rest : List Char) :
    callRun t [] c (closeGlyph k :: rest) =
      if t = openCode k then (VALID_STATE, rest, wrapInt (c - 1))
      else (INVALID_STATE, rest, c) := by
  simp [callRun, openKind_closeGlyph, closeKind_closeGlyph]

theorem callRun_close_cons (t y : Int) (below : List Int) (c : Int) (k : Kind)
    (rest : List Char) :
    callRun t (y :: below) c (closeGlyph k :: rest) =
      callRun t below (if y = openCode k then wrapInt (c - 1) else c) rest := by
  simp [callRun, openKind_closeGlyph, closeKind_closeGlyph]

theorem callRun_other (t : Int) (nested : List Int) (c : Int) (ch : Char) (rest : List Char)
    (h : isGlyph ch = false) :
    callRun t nested c (ch :: rest) = callRun t nested c rest := by
  obtain ⟨h1, h2⟩ := kinds_of_not_glyph ch h
  simp [callRun, h1, h2]

theorem scanAll_nil (nested : List Int) (c : Int) : scanAll nested c [] = some (nested, c) := by
  simp [scanAll]

theorem scanAll_open (nested : List Int) (c : Int) (k : Kind) (rest : List Char) :
    scanAll nested c (openGlyph k :: rest) =
      scanAll (openCode k :: nested) (wrapInt (c + 1)) rest := by
  simp [scanAll, openKind_openGlyph]

theorem scanAll_close_nil (c : Int) (k : Kind) (rest : List Char) :
    scanAll [] c (closeGlyph k :: rest) = none := by
  simp [scanAll, openKind_closeGlyph, closeKind_closeGlyph]

theorem scanAll_close_cons (y : Int) (below : List Int) (c : Int) (k : Kind)
    (rest : List Char) :
    scanAll (y :: below) c (closeGlyph k :: rest) =
      scanAll below (if y = openCode k then wrapInt (c - 1) else c) rest := by
  simp [scanAll, openKind_closeGlyph, closeKind_closeGlyph]

theorem scanAll_other (nested : List Int) (c : Int) (ch : Char) (rest : List Char)
    (h : isGlyph ch = false) :
    scanAll nested c (ch :: rest) = scanAll nested c rest := by
  obtain ⟨h1, h2⟩ := kinds_of_not_glyph ch h
  simp [scanAll, h1, h2]

/-! ## `callRun` is what `checkFileHelper` returns -/

theorem callRun_rest_length (t : Int) (s : List Char) : ∀ (nested : List Int) (c : Int),
    (callRun t nested c s).2.1.length ≤ s.length := by
  induction s with
  | nil => intro nested c; simp [callRun_nil]
  | cons ch rest ih =>
    intro nested c
    rcases char_cases ch with ⟨k, rfl⟩ | ⟨k, rfl⟩ | hc
    · rw [callRun_open]
      exact Nat.le_succ_of_le (ih _ _)
    · cases nested with
      | nil =>
        rw [callRun_close_nil]
        split_ifs <;> simp
      | cons y below =>
        rw [callRun_close_cons]
        exact Nat.le_succ_of_le (ih _ _)
    · rw [callRun_other _ _ _ _ _ hc]
      exact Nat.le_succ_of_le (ih _ _)

/-- A run with nested calls active is the run of the innermost of them, followed by the
run of the others on what it leaves. -/
theorem callRun_split (t y : Int) (outer : List Int) (s : List Char) :
    ∀ (inner : List Int) (c : Int),
    callRun t (inner ++ y :: outer) c s =
      callRun t outer (callRun y inner c s).2.2 (callRun y inner c s).2.1 := by
  induction s with
  | nil => intro inner c; simp [callRun_nil]
  | cons ch rest ih =>
    intro inner c
    rcases char_cases ch with ⟨k, rfl⟩ | ⟨k, rfl⟩ | hc
    · rw [callRun_open, callRun_open, ← List.cons_append]
      exact ih _ _
    · cases inner with
      | nil =>
        rw [List.nil_append, callRun_close_cons, callRun_close_nil]
        by_cases hy : y = openCode k
        · simp [hy]
        · simp [hy]
      | cons z inner =>
        rw [List.cons_append, callRun_close_cons, callRun_close_cons]
        exact ih _ _
    · rw [callRun_other _ _ _ _ _ hc, callRun_other _ _ _ _ _ hc]
      exact ih _ _

/-- Given fuel beyond the length of the stream, `checkFileHelper` returns, and what it
returns is the outcome of `callRun` started with no nested call. -/
theorem callRun_eq (fuel : Nat) : ∀ (t : Int) (s : List Char) (c : Int), s.length < fuel →
    checkFileHelper fuel t s c = some (callRun t [] c s) := by
  induction fuel with
  | zero => intro t s c h; omega
  | succ fuel ih =>
    intro t s c h
    cases s with
    | nil => rw [helper_nil, callRun_nil]
    | cons ch rest =>
      simp only [List.length_cons] at h
      rcases char_cases ch with ⟨k, rfl⟩ | ⟨k, rfl⟩ | hc
      · rw [helper_open, ih _ rest _ (by omega), Option.some_bind,
          ih _ _ _ (by
            have := callRun_rest_length (openCode k) rest [] (wrapInt (c + 1))
            omega),
          callRun_open]
        exact congrArg some (callRun_split t (openCode k) [] rest [] _).symm
      · rw [helper_close, callRun_close_nil]
        split_ifs <;> rfl
      · rw [helper_other _ _ _ _ _ hc, callRun_other _ _ _ _ _ hc]
        exact ih _ _ _ (by omega)

theorem checkFile_eq (s : List Char) (c : Int) :
    checkFile s c = some (callRun (toChar EOF) [] c s) :=
  callRun_eq _ _ _ _ (Nat.lt_succ_self _)

/-! ## The call made by `checkFile` -/

theorem callRun_top_some (s : List Char) : ∀ (nested : List Int) (c : Int)
    (nested1 : List Int) (c1 : Int), scanAll nested c s = some (nested1, c1) →
    callRun (toChar EOF) nested c s =
      (if c1 = 0 then VALID_STATE else INVALID_STATE, [], c1) := by
  induction s with
  | nil =>
    intro nested c nested1 c1 h
    rw [scanAll_nil] at h
    cases h
    rw [callRun_nil]
  | cons ch rest ih =>
    intro nested c nested1 c1 h
    rcases char_cases ch with ⟨k, rfl⟩ | ⟨k, rfl⟩ | hc
    · rw [scanAll_open] at h
      rw [callRun_open]
      exact ih _ _ _ _ h
    · cases nested with
      | nil => rw [scanAll_close_nil] at h; cases h
      | cons y below =>
        rw [scanAll_close_cons] at h
        rw [callRun_close_cons]
        exact ih _ _ _ _ h
    · rw [scanAll_other _ _ _ _ hc] at h
      rw [callRun_other _ _ _ _ _ hc]
      exact ih _ _ _ _ h

theorem callRun_top_none (s : List Char) : ∀ (nested : List Int) (c : Int),
    scanAll nested c s = none → (callRun (toChar EOF) nested c s).1 = INVALID_STATE := by
  induction s with
  | nil => intro nested c h; rw [scanAll_nil] at h; cases h
  | cons ch rest ih =>
    intro nested c h
    rcases char_cases ch with ⟨k, rfl⟩ | ⟨k, rfl⟩ | hc
    · rw [scanAll_open] at h
      rw [callRun_open]
      exact ih _ _ h
    · cases nested with
      | nil => rw [callRun_close_nil, if_neg (eofChar_ne_openCode k)]
      | cons y below =>
        rw [scanAll_close_cons] at h
        rw [callRun_close_cons]
        exact ih _ _ h
    · rw [scanAll_other _ _ _ _ hc] at h
      rw [callRun_other _ _ _ _ _ hc]
      exact ih _ _ h

theorem valid_ne_invalid : VALID_STATE ≠ INVALID_STATE := by decide

/-- When the stream is read to its end, `checkFile` returns by the test on the counter. -/
theorem checkFile_of_scan_some (s : List Char) (c : Int) (nested1 : List Int) (c1 : Int)
    (h : scanAll [] c s = some (nested1, c1)) :
    checkFile s c = some (if c1 = 0 then VALID_STATE else INVALID_STATE, [], c1) := by
  rw [checkFile_eq, callRun_top_some s [] c nested1 c1 h]

/-- When a closing glyph arrives with no nested call active, `checkFile` returns
`INVALID_STATE`. -/
theorem verdict_of_scan_none (s : List Char) (c : Int) (h : scanAll [] c s = none) :
    verdict (checkFile s c) = some INVALID_STATE := by
  rw [checkFile_eq]
  simp only [verdict, Option.map_some', callRun_top_none s [] c h]

theorem verdict_of_scan_some (s : List Char) (c : Int) (nested1 : List Int) (c1 : Int)
    (h : scanAll [] c s = some (nested1, c1)) :
    verdict (checkFile s c) = some (if c1 = 0 then VALID_STATE else INVALID_STATE) := by
  rw [checkFile_of_scan_some s c nested1 c1 h]
  rfl

/-- The function `checkFile` returns `VALID_STATE` exactly when the stream is read to its
end and the counter is 0 there. -/
theorem verdict_valid_iff_scan (s : List Char) (c : Int) :
    verdict (checkFile s c) = some VALID_STATE ↔ ∃ nested1, scanAll [] c s = some (nested1, 0) := by
  cases h : scanAll [] c s with
  | none =>
    rw [verdict_of_scan_none s c h]
    simp only [Option.some.injEq, reduceCtorEq, exists_false, iff_false]
    exact fun h2 => valid_ne_invalid h2.symm
  | some p =>
    obtain ⟨nested1, c1⟩ := p
    rw [verdict_of_scan_some s c nested1 c1 h]
    by_cases hc : c1 = 0
    · subst hc
      simp
    · simp only [hc, if_false]
      constructor
      · intro h2
        exact absurd (Option.some.inj h2).symm valid_ne_invalid
      · rintro ⟨n2, h2⟩
        exact absurd (Prod.mk.inj (Option.some.inj h2)).2 hc

theorem scanAll_append (a b : List Char) : ∀ (nested : List Int) (c : Int),
    scanAll nested c (a ++ b) = (scanAll nested c a).bind (fun p => scanAll p.1 p.2 b) := by
  induction a with
  | nil => intro nested c; simp [scanAll_nil]
  | cons ch a ih =>
    intro nested c
    rw [List.cons_append]
    rcases char_cases ch with ⟨k, rfl⟩ | ⟨k, rfl⟩ | hc
    · rw [scanAll_open, scanAll_open]
      exact ih _ _
    · cases nested with
      | nil => rw [scanAll_close_nil, scanAll_close_nil]; rfl
      | cons y below =>
        rw [scanAll_close_cons, scanAll_close_cons]
        exact ih _ _
    · rw [scanAll_other _ _ _ _ hc, scanAll_other _ _ _ _ hc]
      exact ih _ _

/-- A stream that is read to its end never looks below the nested calls it starts with. -/
theorem scanAll_extend (b : List Char) (ground : List Int) : ∀ (nested : List Int) (c : Int)
    (nested1 : List Int) (c1 : Int), scanAll nested c b = some (nested1, c1) →
    scanAll (nested ++ ground) c b = some (nested1 ++ ground, c1) := by
  induction b with
  | nil =>
    intro nested c nested1 c1 h
    rw [scanAll_nil] at h
    cases h
    rw [scanAll_nil]
  | cons ch b ih =>
    intro nested c nested1 c1 h
    rcases char_cases ch with ⟨k, rfl⟩ | ⟨k, rfl⟩ | hc
    · rw [scanAll_open] at h
      rw [scanAll_open, ← List.cons_append]
      exact ih _ _ _ _ h
    · cases nested with
      | nil => rw [scanAll_close_nil] at h; cases h
      | cons y below =>
        rw [scanAll_close_cons] at h
        rw [List.cons_append, scanAll_close_cons]
        exact ih _ _ _ _ h
    · rw [scanAll_other _ _ _ _ hc] at h
      rw [scanAll_other _ _ _ _ hc]
      exact ih _ _ _ _ h

theorem scanAll_filter (s : List Char) : ∀ (nested : List Int) (c : Int),
    scanAll nested c (s.filter isGlyph) = scanAll nested c s := by
  induction s with
  | nil => intro nested c; rfl
  | cons ch s ih =>
    intro nested c
    rcases char_cases ch with ⟨k, rfl⟩ | ⟨k, rfl⟩ | hc
    · have hg : isGlyph (openGlyph k) = true := by cases k <;> decide
      rw [List.filter_cons_of_pos hg, scanAll_open, scanAll_open]
      exact ih _ _
    · have hg : isGlyph (closeGlyph k) = true := by cases k <;> decide
      rw [List.filter_cons_of_pos hg]
      cases nested with
      | nil => rw [scanAll_close_nil, scanAll_close_nil]
      | cons y below => rw [scanAll_close_cons, scanAll_close_cons, ih]
    · rw [List.filter_cons_of_neg (by simp [hc]), scanAll_other _ _ _ _ hc]
      exact ih _ _

theorem scanAll_no_glyph (s : List Char) (h : ∀ ch ∈ s, isGlyph ch = false)
    (nested : List Int) (c : Int) : scanAll nested c s = some (nested, c) := by
  induction s with
  | nil => rfl
  | cons ch s ih =>
    rw [scanAll_other _ _ _ _ (h ch (List.mem_cons_self _ _))]
    exact ih (fun d hd => h d (List.mem_cons_of_mem _ hd))

theorem openers_append (a b : List Char) : openers (a ++ b) = openers a + openers b := by
  simp [openers, List.countP_append]

theorem openers_cons_open (k : Kind) (s : List Char) :
    openers (openGlyph k :: s) = openers s + 1 := by
  simp [openers, List.countP_cons, openKind_openGlyph]

theorem openers_cons_close (k : Kind) (s : List Char) :
    openers (closeGlyph k :: s) = openers s := by
  simp [openers, List.countP_cons, openKind_closeGlyph]

theorem openers_cons_other (ch : Char) (s : List Char) (h : isGlyph ch = false) :
    openers (ch :: s) = openers s := by
  simp [openers, List.countP_cons, (kinds_of_not_glyph ch h).1]

/-! ## The open-stack of the specification, one character more -/

theorem specStackAfter_snoc (p : List Char) (ch : Char) :
    specStackAfter (p ++ [ch]) = specStackStep (specStackAfter p) ch := by
  simp [specStackAfter, List.foldl_append]

theorem specStackStep_open (st : List Kind) (k : Kind) :
    specStackStep (some st) (openGlyph k) = some (k :: st) := by
  cases k <;> simp [specStackStep, openGlyph, openKind]

theorem specStackStep_close_nil (k : Kind) :
    specStackStep (some []) (closeGlyph k) = none := by
  cases k <;> simp [specStackStep, closeGlyph, openKind, closeKind]

theorem specStackStep_close_cons (t : Kind) (st : List Kind) (k : Kind) :
    specStackStep (some (t :: st)) (closeGlyph k) = if t = k then some st else none := by
  cases k <;> cases t <;> simp [specStackStep, closeGlyph, openKind, closeKind]

theorem specStackStep_other (st : List Kind) (ch : Char) (h : isGlyph ch = false) :
    specStackStep (some st) ch = some st := by
  simp only [isGlyph, Bool.or_eq_false_iff] at h
  have h1 : openKind ch = none := by
    cases ho : openKind ch with
    | none => rfl
    | some k => rw [ho] at h; exact absurd h.1 (by simp)
  have h2 : closeKind ch = none := by
    cases hc : closeKind ch with
    | none => rfl
    | some k => rw [hc] at h; exact absurd h.2 (by simp)
  simp [specStackStep, h1, h2]

theorem specStackStep_close_some (o : Option (List Kind)) (k : Kind) (st : List Kind)
    (h : specStackStep o (closeGlyph k) = some st) : o = some (k :: st) := by
  cases o with
  | none => simp [specStackStep] at h
  | some st0 =>
    cases st0 with
    | nil => rw [specStackStep_close_nil] at h; cases h
    | cons t below =>
      rw [specStackStep_close_cons] at h
      by_cases ht : t = k
      · rw [if_pos ht] at h
        cases h
        rw [ht]
      · rw [if_neg ht] at h
        cases h

theorem specStackStep_open_some (o : Option (List Kind)) (k : Kind) (st : List Kind)
    (h : specStackStep o (openGlyph k) = some st) : ∃ st0, o = some st0 ∧ st = k :: st0 := by
  cases o with
  | none => simp [specStackStep] at h
  | some st0 =>
    rw [specStackStep_open] at h
    cases h
    exact ⟨st0, rfl, rfl⟩

theorem specStackStep_other_some (o : Option (List Kind)) (ch : Char) (st : List Kind)
    (hc : isGlyph ch = false) (h : specStackStep o ch = some st) : o = some st := by
  cases o with
  | none => simp [specStackStep] at h
  | some st0 =>
    rw [specStackStep_other _ _ hc] at h
    exact h

theorem foldl_specStackStep_none (p : List Char) : p.foldl specStackStep none = none := by
  induction p with
  | nil => rfl
  | cons c p ih => simpa [specStackStep] using ih

theorem zero_inRange : INT_MIN ≤ (0 : Int) ∧ (0 : Int) ≤ INT_MAX := by decide

theorem wrap_values :
    wrapInt (0 + ((4294967296 : Nat) : Int)) = 0 ∧
    wrapInt (0 + ((4294967295 : Nat) : Int)) = -1 ∧
    wrapInt (wrapInt (0 + 1) + ((4294967295 : Nat) : Int)) = 0 ∧
    wrapInt (0 + ((2147483648 : Nat) : Int)) = -2147483648 ∧
    wrapInt (-2147483648 + ((2147483648 : Nat) : Int)) = 0 := by
  decide

/-! ## The claims about `checkFile` -/

/-- C6: concatenation law: when `checkFile` returns `VALID_STATE` on `a` alone and on `b`
alone, it returns `VALID_STATE` on `a ++ b`. -/
theorem concat_valid (a b : List Char)
    (ha : verdict (checkFile a INITIAL_SCOPE_NUMBER) = some VALID_STATE)
    (hb : verdict (checkFile b INITIAL_SCOPE_NUMBER) = some VALID_STATE) :
    verdict (checkFile (a ++ b) INITIAL_SCOPE_NUMBER) = some VALID_STATE := by
  obtain ⟨na, hsa⟩ := (verdict_valid_iff_scan a _).1 ha
  obtain ⟨nb, hsb⟩ := (verdict_valid_iff_scan b _).1 hb
  refine (verdict_valid_iff_scan _ _).2 ⟨nb ++ na, ?_⟩
  rw [scanAll_append, hsa, Option.some_bind]
  have h := scanAll_extend b na [] _ nb 0 hsb
  rw [List.nil_append] at h
  exact h

/-- Witness of C6 on "(a)" followed by "[]{}". -/
theorem concat_valid_witness :
    verdict (checkFile "(a)".toList INITIAL_SCOPE_NUMBER) = some VALID_STATE ∧
    verdict (checkFile "[]\x7b\x7d".toList INITIAL_SCOPE_NUMBER) = some VALID_STATE ∧
    verdict (checkFile "(a)[]\x7b\x7d".toList INITIAL_SCOPE_NUMBER) = some VALID_STATE :=
  ⟨by decide, by decide, concat_valid "(a)".toList "[]\x7b\x7d".toList (by decide) (by decide)⟩

/-- C7: characters other than the eight bracket glyphs are inert: `checkFile` returns on a
sequence the verdict it returns on the sequence with every such character removed. -/
theorem nonbracket_inert (s : List Char) :
    verdict (checkFile s INITIAL_SCOPE_NUMBER) =
      verdict (checkFile (s.filter isGlyph) INITIAL_SCOPE_NUMBER) := by
  cases h : scanAll [] INITIAL_SCOPE_NUMBER s with
  | none =>
    rw [verdict_of_scan_none s _ h, verdict_of_scan_none _ _ (by rw [scanAll_filter]; exact h)]
  | some p =>
    obtain ⟨nested1, c1⟩ := p
    rw [verdict_of_scan_some s _ _ _ h,
      verdict_of_scan_some _ _ nested1 c1 (by rw [scanAll_filter]; exact h)]

/-- C8: every sequence that contains none of the eight bracket glyphs is valid; the empty
sequence is the instance with no character at all. -/
theorem no_glyph_valid (s : List Char) (h : ∀ c ∈ s, isGlyph c = false) :
    verdict (checkFile s INITIAL_SCOPE_NUMBER) = some VALID_STATE :=
  (verdict_valid_iff_scan s _).2 ⟨[], scanAll_no_glyph s h [] _⟩

/-- Witness of C8 on the streams "" and "abc". -/
theorem no_glyph_valid_witness :
    verdict (checkFile "".toList INITIAL_SCOPE_NUMBER) = some VALID_STATE ∧
    verdict (checkFile "abc".toList INITIAL_SCOPE_NUMBER) = some VALID_STATE :=
  ⟨no_glyph_valid [] (by decide), no_glyph_valid "abc".toList (by decide)⟩

/-- C9, as the code behaves: the static `scopeCounter` is shared between invocations.
Invoked first, `checkFile` returns `VALID_STATE` on the empty stream; invoked after an
invocation on "(", which leaves the counter at 1, it returns `INVALID_STATE` on the same
empty stream. -/
theorem static_counter_shared :
    verdict (checkFile "".toList INITIAL_SCOPE_NUMBER) = some VALID_STATE ∧
    counterAfter (checkFile "(".toList INITIAL_SCOPE_NUMBER) = some 1 ∧
    verdict (checkFileAfter "(".toList "".toList) = some INVALID_STATE := by
  decide

/-- With a wrong number of arguments `main` writes the usage message to standard error,
nothing to standard output, and returns `INVALID_STATE`. -/
theorem main_wrong_argc (argv : List String) (fopen : String → Option (List Char))
    (h : argv.length ≠ 2) :
    main argv fopen =
      some { stdout := "", stderr := INVALID_ARGUMENTS_MESSAGE, status := some 1 } := by
  simp [main, VALID_ARGUMENTS_NUMBER, h, INVALID_STATE]

/-- C12, as the code behaves: when the named file cannot be opened, `main` writes the
message naming the file to standard error and nothing to standard output, and then calls
`fclose` on the null pointer; it does not reach `return INVALID_STATE` with a defined
status. -/
theorem main_unopened_file_no_status :
    main ["CheckParenthesis", "missing.txt"] (fun _ => none) =
      some { stdout := "", stderr := "Error! trying to open the file missing.txt\n",
             status := none } := by
  decide

/-- C13, as the code behaves: on a readable file that holds "(", whose structure is
invalid, `main` prints "bad structure\n" and returns 0. -/
theorem main_returns_zero_on_invalid_file :
    main ["CheckParenthesis", "bad.txt"] (fun _ => some "(".toList) =
      some { stdout := "bad structure\n", stderr := "", status := some 0 } := by
  decide

/-- C14: `checkMatchingParenthesis(close, open)` returns 0 exactly when `(open, close)` is
one of the pairs `( )`, `[ ]`, `< >`, `{ }` and 1 for every other pair of values; in
particular it returns 1 for every `close` when `open` is the `EOF` sentinel that
`checkFile` passes. -/
theorem checkMatchingParenthesis_table (close open_ : Int) :
    checkMatchingParenthesis close open_ =
        (if (open_ = charCode '(' ∧ close = charCode ')') ∨
            (open_ = charCode '[' ∧ close = charCode ']') ∨
            (open_ = charCode '<' ∧ close = charCode '>') ∨
            (open_ = charCode '{' ∧ close = charCode '}') then 0 else 1) ∧
      checkMatchingParenthesis close (toChar EOF) = 1 := by
  have h1 : charCode '(' = 40 := by decide
  have h2 : charCode ')' = 41 := by decide
  have h3 : charCode '[' = 91 := by decide
  have h4 : charCode ']' = 93 := by decide
  have h5 : charCode '<' = 60 := by decide
  have h6 : charCode '>' = 62 := by decide
  have h7 : charCode '{' = 123 := by decide
  have h8 : charCode '}' = 125 := by decide
  have he : toChar EOF = -1 := by decide
  rw [h1, h2, h3, h4, h5, h6, h7, h8, he]
  simp only [checkMatchingParenthesis, CLOSE_ROUND, CLOSE_SQUARE, CLOSE_TRIANGLE,
    CLOSE_CURLY, OPEN_ROUND, OPEN_SQUARE, OPEN_TRIANGLE, OPEN_CURLY, VALID_STATE,
    INVALID_STATE]
  constructor
  · split_ifs <;> first | rfl | omega
  · split_ifs <;> first | rfl | omega

end CheckParenthesis

namespace ChangeBase

/-! ## Arithmetic of `int` -/

theorem wrapInt_of_inRange (x : Int) (h1 : INT_MIN ≤ x) (h2 : x ≤ INT_MAX) :
    wrapInt x = x := by
  unfold wrapInt
  unfold INT_MIN at h1
  unfold INT_MAX at h2
  omega

theorem wrapInt_inRange (x : Int) : INT_MIN ≤ wrapInt x ∧ wrapInt x ≤ INT_MAX := by
  unfold wrapInt INT_MIN INT_MAX
  omega

theorem wrapInt_modEq (x : Int) : wrapInt x ≡ x [ZMOD 4294967296] := by
  unfold Int.ModEq wrapInt
  omega

theorem eq_of_modEq_inRange (x y : Int) (h : x ≡ y [ZMOD 4294967296])
    (hx1 : INT_MIN ≤ x) (hx2 : x ≤ INT_MAX) (hy1 : INT_MIN ≤ y) (hy2 : y ≤ INT_MAX) :
    x = y := by
  unfold Int.ModEq at h
  unfold INT_MIN at hx1 hy1
  unfold INT_MAX at hx2 hy2
  omega

theorem power_modEq (b : Int) (i : Nat) : power b i ≡ b ^ i [ZMOD 4294967296] := by
  induction i with
  | zero => exact Int.ModEq.refl _
  | succ i ih =>
    rw [power, pow_succ]
    exact (wrapInt_modEq _).trans (ih.mul_right b)

theorem tmod_natCast (n m : Nat) : Int.tmod (n : Int) (m : Int) = ((n % m : Nat) : Int) := by
  rw [Int.tmod_eq_emod (Int.natCast_nonneg n) (Int.natCast_nonneg m)]
  norm_cast

theorem tdiv_natCast (n m : Nat) : Int.tdiv (n : Int) (m : Int) = ((n / m : Nat) : Int) := by
  rw [Int.tdiv_eq_ediv (Int.natCast_nonneg n) (Int.natCast_nonneg m)]
  norm_cast

/-- The digits `decimalDigitsAux` produces are the decimal digits of Mathlib. -/
theorem decimalDigitsAux_eq (fuel : Nat) : ∀ n, n ≤ fuel →
    decimalDigitsAux fuel n = Nat.digits 10 n := by
  induction fuel with
  | zero =>
    intro n h
    have h0 : n = 0 := by omega
    subst h0
    simp [decimalDigitsAux]
  | succ fuel ih =>
    intro n h
    by_cases hn : n = 0
    · subst hn
      simp [decimalDigitsAux]
    · rw [decimalDigitsAux, if_neg hn, Nat.digits_def' (by decide) (Nat.pos_of_ne_zero hn),
        ih (n / 10) (by omega)]

theorem decimalDigits_natCast (n : Nat) : decimalDigits (n : Int) = Nat.digits 10 n := by
  simp [decimalDigits, decimalDigitsAux_eq]

/-! ## What `decimalConverter` computes -/

/-- The loop of `decimalConverter` on a number that is not negative returns, given fuel
beyond the number; the value is congruent modulo `2^32` to the entry value of `result`
plus the value of the remaining decimal digits read in `originalBase` from position
`index` on, and it is an `int` when the entry value of `result` is. -/
theorem decimalConverterLoop_spec (b : Int) (fuel : Nat) :
    ∀ (n : Nat) (result : Int) (index : Nat), n < fuel →
    ∃ r, decimalConverterLoop b fuel (n : Int) result index = Exec.done r ∧
      r ≡ result + numeralValueFrom b index (Nat.digits 10 n) [ZMOD 4294967296] ∧
      (INT_MIN ≤ result ∧ result ≤ INT_MAX → INT_MIN ≤ r ∧ r ≤ INT_MAX) := by
  induction fuel with
  | zero => intro n result index h; omega
  | succ fuel ih =>
    intro n result index h
    by_cases hn : n = 0
    · subst hn
      refine ⟨result, ?_, ?_, fun hr => hr⟩
      · simp [decimalConverterLoop]
      · simp [numeralValueFrom]
    · have hpos : 0 < n := Nat.pos_of_ne_zero hn
      have hne : (n : Int) ≠ 0 := by exact_mod_cast hn
      obtain ⟨r, hr, hmod, hrange⟩ := ih (n / 10)
        (wrapInt (result + wrapInt (((n % 10 : Nat) : Int) * power b index))) (index + 1)
        (by omega)
      refine ⟨r, ?_, ?_, fun _ => hrange (wrapInt_inRange _)⟩
      · rw [decimalConverterLoop, if_pos hne]
        simp only [STANDARD_BASE]
        have h10 : (10 : Int) = ((10 : Nat) : Int) := rfl
        rw [h10, tmod_natCast, tdiv_natCast]
        exact hr
      · rw [Nat.digits_def' (by decide) hpos, numeralValueFrom]
        refine hmod.trans ?_
        rw [← add_assoc]
        refine Int.ModEq.add_right _ ?_
        refine (wrapInt_modEq _).trans (Int.ModEq.add_left _ ?_)
        exact (wrapInt_modEq _).trans ((power_modEq b index).mul_left _)

/-- The function `decimalConverter` returns on every number that is not negative; the
value is an `int` congruent modulo `2^32` to the value of the decimal digit string read in
`originalBase`. -/
theorem decimalConverter_modEq (b number : Int) (h : 0 ≤ number) :
    ∃ r, decimalConverter b number = Exec.done r ∧
      r ≡ numeralValue b (decimalDigits number) [ZMOD 4294967296] ∧
      INT_MIN ≤ r ∧ r ≤ INT_MAX := by
  obtain ⟨n, rfl⟩ := Int.eq_ofNat_of_zero_le h
  obtain ⟨r, hr, hmod, hrange⟩ := decimalConverterLoop_spec b (n + 1) n 0 0 (by omega)
  refine ⟨r, ?_, ?_, hrange (by decide)⟩
  · simpa [decimalConverter] using hr
  · rw [decimalDigits_natCast]
    simpa [numeralValue] using hmod

/-- C20: for every number that is not negative, with decimal digits `d_k ... d_0`,
`decimalConverter(originalBase, number)` returns the sum of `d_i * originalBase^i`,
whenever that sum and the powers involved fit in an `int`. -/
theorem decimalConverter_value (originalBase number : Int) (hnum : 0 ≤ number)
    (hsum : INT_MIN ≤ numeralValue originalBase (decimalDigits number) ∧
      numeralValue originalBase (decimalDigits number) ≤ INT_MAX)
    (_hpow : ∀ i, i < (decimalDigits number).length →
      INT_MIN ≤ originalBase ^ i ∧ originalBase ^ i ≤ INT_MAX) :
    decimalConverter originalBase number =
      Exec.done (numeralValue originalBase (decimalDigits number)) := by
  obtain ⟨r, hr, hmod, h1, h2⟩ := decimalConverter_modEq originalBase number hnum
  rw [hr, eq_of_modEq_inRange r _ hmod h1 h2 hsum.1 hsum.2]

/-- Witness of C20: the digits 1, 0, 1, 1 read in base 2 give 11. -/
theorem decimalConverter_value_witness :
    0 ≤ (1011 : Int) ∧ decimalConverter 2 1011 = Exec.done 11 :=
  ⟨by decide, decimalConverter_value 2 1011 (by decide) (by decide) (by decide)⟩

/-! ## What `checkInput` computes -/

/-- The loop of `checkInput` on a number that is not negative returns, given fuel beyond
the number, `TRUE` when every decimal digit is smaller than `originalBase` and `FALSE`
otherwise. -/
theorem checkInputLoop_spec (b : Int) (fuel : Nat) : ∀ (n : Nat), n < fuel →
    checkInputLoop b fuel (n : Int) =
      Exec.done (if ∀ d ∈ Nat.digits 10 n, (d : Int) < b then TRUE else FALSE) := by
  induction fuel with
  | zero => intro n h; omega
  | succ fuel ih =>
    intro n h
    by_cases hn : n = 0
    · subst hn
      simp [checkInputLoop]
    · have hne : (n : Int) ≠ 0 := by exact_mod_cast hn
      have h10 : (10 : Int) = ((10 : Nat) : Int) := rfl
      rw [checkInputLoop, if_pos hne, Nat.digits_def' (by decide) (Nat.pos_of_ne_zero hn)]
      simp only [STANDARD_BASE]
      rw [h10, tmod_natCast, tdiv_natCast, ih (n / 10) (by omega)]
      by_cases hd : ((n % 10 : Nat) : Int) ≥ b
      · rw [if_pos hd, if_neg]
        intro hall
        have := hall (n % 10) (List.mem_cons_self _ _)
        omega
      · rw [if_neg hd]
        have hlt : ((n % 10 : Nat) : Int) < b := by omega
        simp only [List.mem_cons, forall_eq_or_imp, hlt, true_and]

/-- On every number that is not negative `checkInput` returns 1 exactly when every
decimal digit of the number is smaller than `originalBase`, and 0 otherwise. -/
theorem checkInput_nonneg (b number : Int) (h : 0 ≤ number) :
    checkInput b number =
      Exec.done (if ∀ d ∈ decimalDigits number, (d : Int) < b then 1 else 0) := by
  obtain ⟨n, rfl⟩ := Int.eq_ofNat_of_zero_le h
  rw [decimalDigits_natCast]
  simpa [checkInput, TRUE, FALSE] using checkInputLoop_spec b (n + 1) n (by omega)

/-- C16, as the code behaves: the remainder `number % 10` of a negative number is not
positive, so it is never `>= originalBase` for a base of at least 1.  `checkInput(2, -9)`
returns 1 although the digit 9 of the number is not smaller than the base 2. -/
theorem checkInput_accepts_negative :
    checkInput 2 (-9) = Exec.done 1 ∧ Int.tmod (-9) STANDARD_BASE = -9 ∧
      checkInput 2 9 = Exec.done 0 := by
  decide

/-! ## The result array -/

/-- C17, as the code behaves: the number 1048576 passes `checkInput` for base 10, and
`baseConverterHelper` with `newBase` 2 stores its 21 binary digits at the indices 0 to 20,
so no element of the 21-element array is zero any more; on 2097152, with 22 binary digits,
the store at index 21 lies outside the array. -/
theorem result_array_overrun :
    checkInput 10 1048576 = Exec.done 1 ∧
    emptyResult.length = MAX_RESULT_SIZE + 1 ∧
    baseConverterHelper 2 1048576 emptyResult =
      Exec.done (List.replicate 20 48 ++ [49]) ∧
    checkInput 10 2097152 = Exec.done 1 ∧
    decimalConverter 10 2097152 = Exec.done 2097152 ∧
    baseConverterHelper 2 2097152 emptyResult = Exec.outOfBounds := by
  decide

/-- C15, as the code behaves: for `originalBase` 10, `newBase` 2 and the number 1048576
the conversion fills all 21 elements of the array, and `printResult` runs past the end of
the array in search of the terminating zero: no numeral is printed. -/
theorem conversion_overruns_array :
    decimalConverter 10 1048576 = Exec.done 1048576 ∧
    baseConverter 10 2 1048576 emptyResult = Exec.done (List.replicate 20 48 ++ [49]) ∧
    printResult (List.replicate 20 48 ++ [49]) = Exec.outOfBounds ∧
    main 10 2 1048576 = Exec.outOfBounds := by
  decide

/-! ## What `main` does -/

/-- For a base of absolute value at least 2 and a number below the `k`-th power of the
base in absolute value, the loop of `baseConverterHelper` stores at most `k` digits: when
`k` elements are left in the array from `index` on, it returns, and every element behind
those `k` is as it was. -/
theorem baseConverterHelperLoop_returns (newBase : Int) (hb : 2 ≤ newBase.natAbs)
    (fuel : Nat) :
    ∀ (k : Nat) (number : Int) (result : List Int) (index : Nat),
      number.natAbs < newBase.natAbs ^ k → index + k ≤ result.length → k < fuel →
      ∃ buf, baseConverterHelperLoop newBase fuel number result index = Exec.done buf ∧
        buf.length = result.length ∧
        ∀ j, index + k ≤ j → buf.getD j 0 = result.getD j 0 := by
  induction fuel with
  | zero => intro k number result index _ _ h; omega
  | succ fuel ih =>
    intro k number result index hlt hroom hfuel
    by_cases hn : number = 0
    · subst hn
      exact ⟨result, by simp [baseConverterHelperLoop], rfl, fun _ _ => rfl⟩
    · cases k with
      | zero =>
        simp only [pow_zero, Nat.lt_one_iff, Int.natAbs_eq_zero] at hlt
        exact absurd hlt hn
      | succ k =>
        have hfault : ¬ (newBase = 0 ∨ (number = INT_MIN ∧ newBase = -1)) := by omega
        have hidx : index < result.length := by omega
        obtain ⟨buf, hbuf, hlen, hkeep⟩ := ih k (Int.tdiv number newBase)
          (result.set index (toChar (Int.tmod number newBase + 48))) (index + 1)
          (by
            rw [Int.natAbs_tdiv]
            apply Nat.div_lt_of_lt_mul
            rw [← pow_succ']
            exact hlt)
          (by rw [List.length_set]; omega) (by omega)
        refine ⟨buf, ?_, ?_, ?_⟩
        · rw [baseConverterHelperLoop, if_pos hn, if_neg hfault]
          simp only [hidx, if_true]
          exact hbuf
        · rw [hlen, List.length_set]
        · intro j hj
          rw [hkeep j (by omega), List.getD_eq_getElem?_getD, List.getD_eq_getElem?_getD,
            List.getElem?_set_ne (by omega)]

/-- The first loop of `printResult` finds its index when the array holds a zero. -/
theorem terminatorIndex_returns (l : List Int) : ∀ (i : Nat), (0 : Int) ∈ l →
    ∃ t, terminatorIndex l i = Exec.done t := by
  induction l with
  | nil => intro i h; cases h
  | cons x xs ih =>
    intro i h
    by_cases hx : x = 0
    · exact ⟨i, by simp [terminatorIndex, hx]⟩
    · have hmem : (0 : Int) ∈ xs := by
        rcases List.mem_cons.1 h with h0 | h0
        · exact absurd h0.symm hx
        · exact h0
      obtain ⟨t, ht⟩ := ih (i + 1) hmem
      exact ⟨t, by simp [terminatorIndex, hx, ht]⟩

/-- A conversion to a base of absolute value at least 2 of a value below the 20th power of
the base leaves the last element of the array zero, so `printResult` returns. -/
theorem convert_and_print_return (newBase v : Int) (hb : 2 ≤ newBase.natAbs)
    (hfit : v.natAbs < newBase.natAbs ^ MAX_RESULT_SIZE) :
    ∃ buf printed, baseConverterHelper newBase v emptyResult = Exec.done buf ∧
      printResult buf = Exec.done printed := by
  obtain ⟨buf, hbuf, hlen, hkeep⟩ := baseConverterHelperLoop_returns newBase hb
    (emptyResult.length + 1) MAX_RESULT_SIZE v emptyResult 0 hfit (by decide) (by decide)
  have hlen21 : buf.length = 21 := by rw [hlen]; rfl
  have hlast : buf.getD 20 0 = 0 := by
    rw [hkeep 20 (by decide)]
    rfl
  have hmem : (0 : Int) ∈ buf := by
    have h20 : 20 < buf.length := by omega
    rw [List.getD_eq_getElem buf 0 h20] at hlast
    rw [← hlast]
    exact List.getElem_mem h20
  obtain ⟨t, ht⟩ := terminatorIndex_returns buf 0 hmem
  refine ⟨buf, String.mk (printBackwards buf t ++ ['\n']), hbuf, ?_⟩
  simp [printResult, ht, Exec.andThen]

/-- C18, amended: if `number` is 0, `main` prints "0\n" and returns 0 whatever the two
bases are; if `number` is not 0 and `checkInput` rejects it, `main` prints "invalid!!\n" to
standard error, prints no conversion result and returns 1; if `number` is not 0,
`checkInput` accepts it, `newBase` is at least 2 in absolute value and the value
`decimalConverter` returns is below the 20th power of `newBase` in absolute value, `main`
prints the conversion result, writes nothing to standard error and returns 0. -/
theorem main_outcome (originalBase newBase number : Int) :
    (number = 0 →
      main originalBase newBase number =
        Exec.done { stdout := "0\n", stderr := "", status := 0 }) ∧
    (number ≠ 0 → checkInput originalBase number = Exec.done 0 →
      main originalBase newBase number =
        Exec.done { stdout := "", stderr := "invalid!!\n", status := 1 }) ∧
    (∀ accepted v, number ≠ 0 → checkInput originalBase number = Exec.done accepted →
      accepted ≠ 0 → 2 ≤ newBase.natAbs →
      decimalConverter originalBase number = Exec.done v →
      v.natAbs < newBase.natAbs ^ MAX_RESULT_SIZE →
      ∃ result printed,
        baseConverter originalBase newBase number emptyResult = Exec.done result ∧
        printResult result = Exec.done printed ∧
        main originalBase newBase number =
          Exec.done { stdout := printed, stderr := "", status := 0 }) := by
  refine ⟨?_, ?_, ?_⟩
  · intro h
    subst h
    rfl
  · intro h hc
    simp [main, h, hc, Exec.andThen, INVALID_INPUT_MESSAGE, INVALID_STATE]
  · intro accepted v h hc ha hb hv hfit
    obtain ⟨buf, printed, hbuf, hprint⟩ := convert_and_print_return newBase v hb hfit
    have hconv : baseConverter originalBase newBase number emptyResult = Exec.done buf := by
      simp [baseConverter, hv, Exec.andThen, hbuf]
    refine ⟨buf, printed, hconv, hprint, ?_⟩
    simp [main, h, hc, ha, hconv, hprint, Exec.andThen, VALID_STATE]

/-- Witness of C18, amended: the inputs `3^10^0^`, `2^10^19^` and `2^10^101^`. -/
theorem main_outcome_witness :
    main 3 10 0 = Exec.done { stdout := "0\n", stderr := "", status := 0 } ∧
    main 2 10 19 = Exec.done { stdout := "", stderr := "invalid!!\n", status := 1 } ∧
    (∃ result printed, baseConverter 2 10 101 emptyResult = Exec.done result ∧
      printResult result = Exec.done printed ∧
      main 2 10 101 = Exec.done { stdout := printed, stderr := "", status := 0 }) :=
  ⟨(main_outcome 3 10 0).1 rfl,
   (main_outcome 2 10 19).2.1 (by decide) (by decide),
   (main_outcome 2 10 101).2.2 1 5 (by decide) (by decide) (by decide) (by decide)
     (by decide) (by decide)⟩

/-- C18, as stated, fails: the number 5 is not 0 and passes `checkInput` for base 10, but
with `newBase` 0 the first `number % newBase` divides by zero; `main` neither prints a
conversion result nor returns 0. -/
theorem main_divides_by_zero :
    checkInput 10 5 = Exec.done 1 ∧ main 10 0 5 = Exec.arithmeticFault := by
  decide

end ChangeBase

namespace CheckParenthesis

/-! ## One pass of a run, by class of the character read -/

theorem step_nil (t : Int) (callers : List Int) (sc : Int) (ret : Option Int)
    (cons : List Char) (m e : Nat) :
    step ⟨t :: callers, sc, [], ret, cons, m, e⟩ =
      some ⟨callers, sc, [], some (if sc = 0 then VALID_STATE else INVALID_STATE), cons, m,
        e + (if callers = [] then 0 else 1)⟩ := by
  simp [step, Config.leave, INITIAL_SCOPE_NUMBER]

theorem step_other (t : Int) (callers : List Int) (sc : Int) (ch : Char) (rest : List Char)
    (ret : Option Int) (cons : List Char) (m e : Nat) (h : isGlyph ch = false) :
    step ⟨t :: callers, sc, ch :: rest, ret, cons, m, e⟩ =
      some ⟨t :: callers, sc, rest, ret, cons ++ [ch], m, e⟩ := by
  obtain ⟨h1, h2, h3, h4, h5, h6, h7, h8⟩ := not_glyph_codes ch h
  simp [step, h1, h2, h3, h4, h5, h6, h7, h8]

theorem step_open (t : Int) (callers : List Int) (sc : Int) (k : Kind) (rest : List Char)
    (ret : Option Int) (cons : List Char) (m e : Nat) :
    step ⟨t :: callers, sc, openGlyph k :: rest, ret, cons, m, e⟩ =
      some ⟨openCode k :: t :: callers, wrapInt (sc + 1), rest, ret, cons ++ [openGlyph k], m,
        e⟩ := by
  obtain ⟨h1, h2, h3, h4, -, -, -, -⟩ := glyph_codes
  cases k <;>
  · simp only [step, openGlyph, openCode, OPEN_ROUND, OPEN_SQUARE, OPEN_TRIANGLE,
      OPEN_CURLY, h1, h2, h3, h4]
    norm_num

theorem step_close (t : Int) (callers : List Int) (sc : Int) (k : Kind) (rest : List Char)
    (ret : Option Int) (cons : List Char) (m e : Nat) :
    step ⟨t :: callers, sc, closeGlyph k :: rest, ret, cons, m, e⟩ =
      if t = openCode k then
        some ⟨callers, wrapInt (sc - 1), rest, some VALID_STATE, cons ++ [closeGlyph k], m, e⟩
      else
        some ⟨callers, sc, rest, some INVALID_STATE, cons ++ [closeGlyph k],
          m + (if callers = [] then 0 else 1), e⟩ := by
  obtain ⟨h1, h2, h3, h4, h5, h6, h7, h8⟩ := glyph_codes
  cases k <;>
  · simp only [step, Config.leave, closeGlyph, openGlyph, openCode, OPEN_ROUND, OPEN_SQUARE,
      OPEN_TRIANGLE, OPEN_CURLY, CLOSE_ROUND, CLOSE_SQUARE, CLOSE_TRIANGLE, CLOSE_CURLY,
      checkMatchingParenthesis, toChar, h1, h2, h3, h4, h5, h6, h7, h8]
    norm_num
    split_ifs <;> simp_all [VALID_STATE, INVALID_STATE]

theorem runSteps_add (a b : Nat) : ∀ (c : Config),
    runSteps (a + b) c = (runSteps a c).bind (runSteps b) := by
  induction a with
  | zero => intro c; simp [runSteps]
  | succ a ih =>
    intro c
    rw [Nat.add_right_comm, runSteps, runSteps]
    cases step c with
    | none => rfl
    | some d => simp [ih d]

theorem runSteps_step (n : Nat) (c d e : Config) (h1 : step c = some d)
    (h2 : runSteps n d = some e) : runSteps (n + 1) c = some e := by
  rw [runSteps, h1]
  exact h2

theorem runSteps_trans (a b : Nat) (c d e : Config) (h1 : runSteps a c = some d)
    (h2 : runSteps b d = some e) : runSteps (a + b) c = some e := by
  rw [runSteps_add, h1]
  exact h2

/-! ## The run and the function agree -/

/-- Whatever a call of `checkFileHelper` returns, the run started at the entry of that
call reaches the point where the frame of the call has been dropped, with the same
returned value, the same unread rest of the file and the same counter. -/
theorem run_of_call (fuel : Nat) : ∀ (t : Int) (input : List Char) (sc r : Int)
    (rest : List Char) (sc1 : Int),
    checkFileHelper fuel t input sc = some (r, rest, sc1) →
    ∀ (callers : List Int) (ret : Option Int) (cons : List Char) (m e : Nat),
    ∃ n cons1 m1 e1, runSteps n ⟨t :: callers, sc, input, ret, cons, m, e⟩ =
      some ⟨callers, sc1, rest, some r, cons1, m1, e1⟩ := by
  induction fuel with
  | zero =>
    intro t input sc r rest sc1 h
    simp [checkFileHelper] at h
  | succ fuel ih =>
    intro t input sc r rest sc1 h callers ret cons m e
    cases input with
    | nil =>
      rw [helper_nil] at h
      simp only [Option.some.injEq, Prod.mk.injEq] at h
      obtain ⟨hr, hrest, hsc⟩ := h
      subst hr hrest hsc
      exact ⟨1, _, _, _, runSteps_step 0 _ _ _ (step_nil _ _ _ _ _ _ _) rfl⟩
    | cons ch rest0 =>
      rcases char_cases ch with ⟨k, rfl⟩ | ⟨k, rfl⟩ | hc
      · rw [helper_open] at h
        cases hin : checkFileHelper fuel (openCode k) rest0 (wrapInt (sc + 1)) with
        | none => rw [hin] at h; cases h
        | some o =>
          obtain ⟨r1, rest1, sc2⟩ := o
          rw [hin] at h
          simp only [Option.some_bind] at h
          obtain ⟨n1, c1, m1, e1, h1⟩ := ih _ _ _ _ _ _ hin (t :: callers) ret
            (cons ++ [openGlyph k]) m e
          obtain ⟨n2, c2, m2, e2, h2⟩ := ih _ _ _ _ _ _ h callers (some r1) c1 m1 e1
          exact ⟨n1 + n2 + 1, c2, m2, e2,
            runSteps_step _ _ _ _ (step_open _ _ _ _ _ _ _ _ _)
              (runSteps_trans _ _ _ _ _ h1 h2)⟩
      · rw [helper_close] at h
        by_cases ht : t = openCode k
        · rw [if_pos ht] at h
          simp only [Option.some.injEq, Prod.mk.injEq] at h
          obtain ⟨hr, hrest, hsc⟩ := h
          subst hr hrest hsc
          refine ⟨1, cons ++ [closeGlyph k], m, e, runSteps_step 0 _ _ _ ?_ rfl⟩
          rw [step_close, if_pos ht]
        · rw [if_neg ht] at h
          simp only [Option.some.injEq, Prod.mk.injEq] at h
          obtain ⟨hr, hrest, hsc⟩ := h
          subst hr hrest hsc
          refine ⟨1, cons ++ [closeGlyph k], m + (if callers = [] then 0 else 1), e,
            runSteps_step 0 _ _ _ ?_ rfl⟩
          rw [step_close, if_neg ht]
      · rw [helper_other _ _ _ _ _ hc] at h
        obtain ⟨n1, c1, m1, e1, h1⟩ := ih _ _ _ _ _ _ h callers ret (cons ++ [ch]) m e
        exact ⟨n1 + 1, c1, m1, e1,
          runSteps_step _ _ _ _ (step_other _ _ _ _ _ _ _ _ _ hc) h1⟩

/-- The run started by `checkFile` reaches the point where `checkFile` has returned, and
there the returned value, the unread rest of the file and the counter are those of the
function `checkFile`. -/
theorem run_agrees_checkFile (s : List Char) :
    ∃ n c r, runSteps n (start s) = some c ∧ c.frames = [] ∧ c.returned = some r ∧
      checkFile s INITIAL_SCOPE_NUMBER = some (r, c.pFile, c.scopeCounter) := by
  have hcf : checkFile s INITIAL_SCOPE_NUMBER =
      some ((callRun (toChar EOF) [] INITIAL_SCOPE_NUMBER s).1,
        (callRun (toChar EOF) [] INITIAL_SCOPE_NUMBER s).2.1,
        (callRun (toChar EOF) [] INITIAL_SCOPE_NUMBER s).2.2) :=
    checkFile_eq s INITIAL_SCOPE_NUMBER
  obtain ⟨n, c1, m1, e1, hrun⟩ := run_of_call _ _ _ _ _ _ _ hcf [] none [] 0 0
  exact ⟨n, _, _, hrun, rfl, rfl, hcf⟩

/-- The frames below the innermost one: either the innermost call is the one made by
`checkFile`, or it is a nested call entered for an opening glyph. -/
theorem frames_cases (t : Int) (callers : List Int)
    (h : t :: callers = [] ∨ ∃ ks : List Kind, t :: callers = ks.map openCode ++ [toChar EOF]) :
    (t = toChar EOF ∧ callers = []) ∨
    (∃ (k0 : Kind) (ks : List Kind), t = openCode k0 ∧
      callers = ks.map openCode ++ [toChar EOF]) := by
  rcases h with h | ⟨ks, h⟩
  · cases h
  · cases ks with
    | nil =>
      simp only [List.map_nil, List.nil_append, List.cons.injEq] at h
      exact Or.inl ⟨h.1, h.2⟩
    | cons k0 ks =>
      simp only [List.map_cons, List.cons_append, List.cons.injEq] at h
      exact Or.inr ⟨k0, ks, h.1, h.2⟩

/-! ## The opening glyphs read -/

theorem openers_snoc_open (p : List Char) (k : Kind) :
    openers (p ++ [openGlyph k]) = openers p + 1 := by
  rw [openers_append, openers_cons_open]
  rfl

theorem openers_snoc_close (p : List Char) (k : Kind) :
    openers (p ++ [closeGlyph k]) = openers p := by
  rw [openers_append, openers_cons_close]
  rfl

theorem openers_snoc_other (p : List Char) (ch : Char) (h : isGlyph ch = false) :
    openers (p ++ [ch]) = openers p := by
  rw [openers_append, openers_cons_other ch [] h]
  rfl

/-- The open-stack of the specification's algorithm holds at most one kind for every
opening glyph read. -/
theorem stack_length_le (p : List Char) : ∀ (st0 st : List Kind),
    p.foldl specStackStep (some st0) = some st → st.length ≤ st0.length + openers p := by
  induction p with
  | nil =>
    intro st0 st h
    simp only [List.foldl_nil, Option.some.injEq] at h
    rw [h]
    exact Nat.le_add_right _ _
  | cons ch p ih =>
    intro st0 st h
    rw [List.foldl_cons] at h
    rcases char_cases ch with ⟨k, rfl⟩ | ⟨k, rfl⟩ | hc
    · rw [specStackStep_open] at h
      have := ih _ _ h
      rw [openers_cons_open]
      simp only [List.length_cons] at this
      omega
    · cases st0 with
      | nil =>
        rw [specStackStep_close_nil, foldl_specStackStep_none] at h
        cases h
      | cons t below =>
        rw [specStackStep_close_cons] at h
        by_cases ht : t = k
        · rw [if_pos ht] at h
          have := ih _ _ h
          rw [openers_cons_close]
          simp only [List.length_cons]
          omega
        · rw [if_neg ht, foldl_specStackStep_none] at h
          cases h
    · rw [specStackStep_other _ _ hc] at h
      have := ih _ _ h
      rw [openers_cons_other _ _ hc]
      exact this

/-! ## The invariant of a run -/

theorem invariant_start (s : List Char) : RunInvariant s (start s) := by
  have hw : (0 : Int) = wrapInt (((0 : Nat) : Int) + ((0 : Nat) : Int) + ((0 : Nat) : Int)) := by
    decide
  have hw0 : (0 : Int) = wrapInt ((0 : Nat) : Int) := by decide
  refine ⟨Or.inr ⟨[], rfl⟩, hw, Nat.zero_le _, fun _ => rfl, rfl, ?_⟩
  intro st hst _
  have : st = [] := by
    simp only [start, specStackAfter, List.foldl_nil, Option.some.injEq] at hst
    exact hst.symm
  subst this
  exact ⟨hw0, fun _ => rfl⟩

theorem invariant_step (s : List Char) (c d : Config) (hinv : RunInvariant s c)
    (hstep : step c = some d) : RunInvariant s d := by
  obtain ⟨frames, sc, pFile, ret, cons, m, e⟩ := c
  obtain ⟨h1, h2, hcnt, h3, h4, h5⟩ := hinv
  dsimp only [activeNested] at h1 h2 hcnt h3 h4 h5
  cases frames with
  | nil => simp [step] at hstep
  | cons t callers =>
    have hfr := frames_cases t callers h1
    have hlen : (t :: callers).length - 1 = callers.length := by simp
    rw [hlen] at h2 hcnt
    cases pFile with
    | nil =>
      rw [step_nil] at hstep
      simp only [Option.some.injEq] at hstep
      subst hstep
      rcases hfr with ⟨-, hc⟩ | ⟨k0, ks, -, hc⟩
      · subst hc
        refine ⟨Or.inl rfl, ?_, ?_, fun h => absurd rfl h, h4, fun st _ h => absurd rfl h⟩
        · simpa [activeNested] using h2
        · simpa [activeNested] using hcnt
      · have hne : callers ≠ [] := by rw [hc]; simp
        have hl : callers.length = ks.length + 1 := by rw [hc]; simp
        refine ⟨Or.inr ⟨ks, hc⟩, ?_, ?_, fun h => absurd rfl h, h4, ?_⟩
        · simp only [activeNested, hne, if_false]
          rw [h2]
          congr 1
          omega
        · simp only [activeNested, hne, if_false]
          omega
        · intro st hst _
          refine ⟨(h5 st hst (by simp)).1, fun h => ?_⟩
          simp [hne] at h
    | cons ch rest =>
      have he : e = 0 := h3 (by simp)
      have h4' : (cons ++ [ch]) ++ rest = s := by simpa using h4
      rcases char_cases ch with ⟨k, rfl⟩ | ⟨k, rfl⟩ | hch
      · rw [step_open] at hstep
        simp only [Option.some.injEq] at hstep
        subst hstep
        refine ⟨?_, ?_, ?_, fun _ => he, h4', ?_⟩
        · rcases h1 with h1 | ⟨ks, h1⟩
          · cases h1
          · exact Or.inr ⟨k :: ks, by simp [h1]⟩
        · simp only [activeNested, List.length_cons]
          rw [h2, counter_wrap_add]
          congr 1
          omega
        · simp only [activeNested, List.length_cons, openers_snoc_open]
          omega
        · intro st hst _
          rw [specStackAfter_snoc] at hst
          obtain ⟨st0, hst0, rfl⟩ := specStackStep_open_some _ _ _ hst
          obtain ⟨ha, hb⟩ := h5 st0 hst0 (by simp)
          refine ⟨?_, fun _ => ?_⟩
          · show wrapInt (sc + 1) = wrapInt ((k :: st0).length : Int)
            rw [ha, counter_wrap_add]
            congr 1
          · simp [hb he]
      · rw [step_close] at hstep
        by_cases ht : t = openCode k
        · rw [if_pos ht] at hstep
          simp only [Option.some.injEq] at hstep
          subst hstep
          rcases hfr with ⟨hf, -⟩ | ⟨k0, ks, -, hc⟩
          · exact absurd (hf.symm.trans ht) (eofChar_ne_openCode k)
          · have hl : callers.length = ks.length + 1 := by rw [hc]; simp
            refine ⟨Or.inr ⟨ks, hc⟩, ?_, ?_, fun _ => he, h4', ?_⟩
            · simp only [activeNested]
              rw [h2, counter_wrap_sub]
              congr 1
              omega
            · simp only [activeNested, openers_snoc_close]
              omega
            · intro st hst _
              rw [specStackAfter_snoc] at hst
              have hst0 := specStackStep_close_some _ _ _ hst
              obtain ⟨ha, hb⟩ := h5 (k :: st) hst0 (by simp)
              refine ⟨?_, fun _ => ?_⟩
              · show wrapInt (sc - 1) = wrapInt (st.length : Int)
                simp only [List.length_cons] at ha
                rw [ha, counter_wrap_sub]
                congr 1
                omega
              · have hb2 := hb he
                simp only [List.map_cons, List.cons_append, List.cons.injEq] at hb2
                exact hb2.2
        · rw [if_neg ht] at hstep
          simp only [Option.some.injEq] at hstep
          subst hstep
          rcases hfr with ⟨-, hc⟩ | ⟨k0, ks, -, hc⟩
          · subst hc
            refine ⟨Or.inl rfl, ?_, ?_, fun _ => he, h4', fun st _ h => absurd rfl h⟩
            · simpa [activeNested] using h2
            · simpa [activeNested, openers_snoc_close] using hcnt
          · have hne : callers ≠ [] := by rw [hc]; simp
            have hl : callers.length = ks.length + 1 := by rw [hc]; simp
            refine ⟨Or.inr ⟨ks, hc⟩, ?_, ?_, fun _ => he, h4', ?_⟩
            · simp only [activeNested, hne, if_false]
              rw [h2]
              congr 1
              omega
            · simp only [activeNested, hne, if_false, openers_snoc_close]
              omega
            · intro st hst _
              rw [specStackAfter_snoc] at hst
              have hst0 := specStackStep_close_some _ _ _ hst
              obtain ⟨-, hb⟩ := h5 (k :: st) hst0 (by simp)
              have hb2 := hb he
              simp only [List.map_cons, List.cons_append, List.cons.injEq] at hb2
              exact absurd hb2.1 ht
      · rw [step_other _ _ _ _ _ _ _ _ _ hch] at hstep
        simp only [Option.some.injEq] at hstep
        subst hstep
        refine ⟨h1, ?_, ?_, fun _ => he, h4', ?_⟩
        · simpa [activeNested] using h2
        · simpa [activeNested, openers_snoc_other _ _ hch] using hcnt
        · intro st hst hf
          rw [specStackAfter_snoc] at hst
          exact h5 st (specStackStep_other_some _ _ _ hch hst) hf

/-- Every point a run of `checkFile` on `s` reaches satisfies the invariant. -/
theorem invariant_run (s : List Char) (n : Nat) : ∀ (c d : Config), RunInvariant s c →
    runSteps n c = some d → RunInvariant s d := by
  induction n with
  | zero =>
    intro c d hinv h
    simp only [runSteps, Option.some.injEq] at h
    rw [← h]
    exact hinv
  | succ n ih =>
    intro c d hinv h
    rw [runSteps] at h
    cases hs : step c with
    | none => rw [hs] at h; cases h
    | some c1 =>
      rw [hs] at h
      exact ih c1 d (invariant_step s c c1 hinv hs) h

/-! ## The run over mismatched pairs -/

/-- The run over a mismatched pair `(]` read by the call made by `checkFile`: a nested call
is entered and returns at once on the closing glyph, which leaves the counter one up. -/
theorem run_pair (sc : Int) (rest : List Char) (ret : Option Int) (cons : List Char)
    (m : Nat) :
    runSteps 2 ⟨[toChar EOF], sc, '(' :: ']' :: rest, ret, cons, m, 0⟩ =
      some ⟨[toChar EOF], wrapInt (sc + 1), rest, some INVALID_STATE, cons ++ ['(', ']'],
        m + 1, 0⟩ := by
  have hne : openCode Kind.Round ≠ openCode Kind.Square := by decide
  have h1 := step_open (toChar EOF) [] sc Kind.Round (closeGlyph Kind.Square :: rest) ret
    cons m 0
  have h2 := step_close (openCode Kind.Round) [toChar EOF] (wrapInt (sc + 1)) Kind.Square
    rest ret (cons ++ [openGlyph Kind.Round]) m 0
  rw [if_neg hne] at h2
  refine runSteps_step 1 _ _ _ h1 (runSteps_step 0 _ _ _ h2 ?_)
  simp [runSteps, openGlyph, closeGlyph]

/-- The run over `n` mismatched pairs read by the call made by `checkFile` raises the
counter by `n`, modulo `2^32`. -/
theorem run_pairs (n : Nat) : ∀ (sc : Int) (ret : Option Int) (cons : List Char) (m : Nat)
    (rest : List Char), INT_MIN ≤ sc ∧ sc ≤ INT_MAX →
    ∃ ret1, runSteps (2 * n) ⟨[toChar EOF], sc, mismatchedPairs n ++ rest, ret, cons, m, 0⟩ =
      some ⟨[toChar EOF], wrapInt (sc + n), rest, ret1, cons ++ mismatchedPairs n, m + n,
        0⟩ := by
  induction n with
  | zero =>
    intro sc ret cons m rest hc
    refine ⟨ret, ?_⟩
    rw [Nat.cast_zero, add_zero, counter_wrap_id sc hc.1 hc.2]
    simp [runSteps, mismatchedPairs]
  | succ n ih =>
    intro sc ret cons m rest _
    obtain ⟨ret1, h⟩ := ih (wrapInt (sc + 1)) (some INVALID_STATE) (cons ++ ['(', ']'])
      (m + 1) rest (counter_wrap_range _)
    refine ⟨ret1, ?_⟩
    have h2 : 2 * (n + 1) = 2 + 2 * n := by ring
    have hw : wrapInt (wrapInt (sc + 1) + (n : Int)) = wrapInt (sc + ((n + 1 : Nat) : Int)) := by
      rw [counter_wrap_add]
      congr 1
      push_cast
      ring
    have hcons : cons ++ ['(', ']'] ++ mismatchedPairs n = cons ++ mismatchedPairs (n + 1) := by
      simp [mismatchedPairs]
    have hm : m + 1 + n = m + (n + 1) := by ring
    rw [hw, hcons, hm] at h
    rw [h2]
    exact runSteps_trans 2 (2 * n) _ _ _ (run_pair sc (mismatchedPairs n ++ rest) ret cons m) h

/-- Without a bound on the opening glyphs the counter does pass below 0: the run over
`2^31` mismatched pairs `(]` leaves it at `-2^31` while `checkFile` has not returned. -/
theorem scopeCounter_negative_after_wrap :
    ∃ c, runSteps (2 * 2147483648) (start (mismatchedPairs 2147483648)) = some c ∧
      c.frames = [toChar EOF] ∧ c.scopeCounter = -2147483648 := by
  obtain ⟨ret1, h⟩ := run_pairs 2147483648 0 none [] 0 [] zero_inRange
  rw [List.append_nil] at h
  exact ⟨_, h, rfl, wrap_values.2.2.2.1⟩

/-- C19, amended: at every point of the run of `checkFile` started with the counter at 0,
on a file with fewer than `2^31` opening glyphs, the counter equals the number of active
nested calls plus the number of nested calls that have returned without a matching closing
glyph, on a mismatched closing glyph or at the end of the file; hence it is never negative;
and as long as the specification's algorithm has not rejected the characters read and
`checkFile` has not returned, it equals the size of the open-stack.  On every file,
whenever `checkFile` returns `VALID_STATE`, the counter is back at 0.  The run is the run
of the function: it ends with the outcome of `checkFile`. -/
theorem scopeCounter_invariant (s : List Char) (n : Nat) (c : Config)
    (hrun : runSteps n (start s) = some c) :
    (openers s < 2147483648 →
        c.scopeCounter =
          (activeNested c : Int) + (c.mismatched : Int) + (c.endReturns : Int) ∧
        0 ≤ c.scopeCounter ∧
        (∀ st, specStackAfter c.consumed = some st → c.frames ≠ [] →
          c.scopeCounter = (st.length : Int))) ∧
      c.consumed ++ c.pFile = s ∧
      (verdict (checkFile s INITIAL_SCOPE_NUMBER) = some VALID_STATE →
        counterAfter (checkFile s INITIAL_SCOPE_NUMBER) = some 0) ∧
      (∃ k d r, runSteps k (start s) = some d ∧ d.frames = [] ∧ d.returned = some r ∧
        checkFile s INITIAL_SCOPE_NUMBER = some (r, d.pFile, d.scopeCounter)) := by
  obtain ⟨-, h2, hcnt, -, h4, h5⟩ := invariant_run s n _ c (invariant_start s) hrun
  have hle : openers c.consumed ≤ openers s := by
    rw [← h4, openers_append]
    exact Nat.le_add_right _ _
  refine ⟨fun hb => ?_, h4, ?_, run_agrees_checkFile s⟩
  · have hsum : c.scopeCounter =
        (activeNested c : Int) + (c.mismatched : Int) + (c.endReturns : Int) := by
      have hn := counter_wrap_count (activeNested c + c.mismatched + c.endReturns) (by omega)
      rw [h2]
      simpa only [Nat.cast_add] using hn
    refine ⟨hsum, by omega, ?_⟩
    intro st hst hf
    have hlen := stack_length_le c.consumed [] st hst
    simp only [List.length_nil, Nat.zero_add] at hlen
    rw [(h5 st hst hf).1]
    exact counter_wrap_count st.length (by omega)
  · intro hv
    obtain ⟨nested1, hs⟩ := (verdict_valid_iff_scan s _).1 hv
    rw [checkFile_of_scan_some s _ nested1 0 hs]
    rfl

/-- Witness of C19, amended: the point of the run on "(]" after two passes, where the
nested call has returned on the mismatched closing glyph. -/
theorem scopeCounter_invariant_witness :
    openers "(]".toList < 2147483648 ∧
      runSteps 2 (start "(]".toList) =
        some ⟨[toChar EOF], 1, [], some INVALID_STATE, "(]".toList, 1, 0⟩ ∧
      (1 : Int) = ((0 : Nat) : Int) + ((1 : Nat) : Int) + ((0 : Nat) : Int) :=
  ⟨by decide, by decide,
   ((scopeCounter_invariant "(]".toList 2
      ⟨[toChar EOF], 1, [], some INVALID_STATE, "(]".toList, 1, 0⟩ (by decide)).1
      (by decide)).1⟩

/-- C19, as stated, fails: on the file "(" the nested call returns at the end of the file
without touching the counter; at the next point of the run the counter is 1, no nested
call is active and no mismatched closing glyph has been seen. -/
theorem scopeCounter_after_end_of_file :
    ∃ c, runSteps 2 (start "(".toList) = some c ∧ c.frames = [toChar EOF] ∧
      c.scopeCounter = 1 ∧ activeNested c = 0 ∧ c.mismatched = 0 ∧
      c.scopeCounter ≠ (activeNested c : Int) + (c.mismatched : Int) :=
  ⟨⟨[toChar EOF], 1, [], some INVALID_STATE, "(".toList, 0, 1⟩,
    by decide, rfl, rfl, rfl, rfl, by decide⟩

end CheckParenthesis

namespace ChangeBase

/-! ## The conversion, as far as the array reaches -/

theorem digits_length_le (B : Nat) (hB : 2 ≤ B) (k : Nat) : ∀ (n : Nat), n < B ^ k →
    (Nat.digits B n).length ≤ k := by
  induction k with
  | zero =>
    intro n h
    have h0 : n = 0 := by simpa using h
    subst h0
    simp
  | succ k ih =>
    intro n h
    by_cases hn : n = 0
    · subst hn
      simp
    · rw [Nat.digits_def' (by omega) (Nat.pos_of_ne_zero hn), List.length_cons]
      have := ih (n / B) (Nat.div_lt_of_lt_mul (by rw [← pow_succ']; exact h))
      omega

theorem take_succ_set (c : Int) (l : List Int) : ∀ (i : Nat), i < l.length →
    (l.set i c).take (i + 1) = l.take i ++ [c] := by
  induction l with
  | nil => intro i h; cases h
  | cons x xs ih =>
    intro i h
    cases i with
    | zero => simp
    | succ i =>
      simp only [List.length_cons, Nat.add_lt_add_iff_right] at h
      simp [ih i h]

/-- The loop of `baseConverterHelper` on a base of at least 2 and a number that is not
negative stores the digits of the number in that base, least significant first, from
`index` on, each as the character `'0'` plus the digit, when the array has room for them. -/
theorem baseConverterHelperLoop_digits (B : Nat) (hB : 2 ≤ B) (fuel : Nat) :
    ∀ (n : Nat) (result : List Int) (index : Nat),
      (Nat.digits B n).length < fuel → index + (Nat.digits B n).length ≤ result.length →
      baseConverterHelperLoop (B : Int) fuel (n : Int) result index =
        Exec.done (result.take index ++
          (Nat.digits B n).map (fun (d : Nat) => toChar ((d : Int) + 48)) ++
          result.drop (index + (Nat.digits B n).length)) := by
  induction fuel with
  | zero => intro n result index h; omega
  | succ fuel ih =>
    intro n result index hfuel hroom
    by_cases hn : n = 0
    · subst hn
      simp [baseConverterHelperLoop]
    · have hne : (n : Int) ≠ 0 := by exact_mod_cast hn
      have hfault : ¬ ((B : Int) = 0 ∨ ((n : Int) = INT_MIN ∧ (B : Int) = -1)) := by omega
      rw [Nat.digits_def' (by omega) (Nat.pos_of_ne_zero hn)] at hfuel hroom ⊢
      simp only [List.length_cons] at hfuel hroom
      have hidx : index < result.length := by omega
      rw [baseConverterHelperLoop, if_pos hne, if_neg hfault]
      simp only [hidx, if_true]
      rw [tmod_natCast, tdiv_natCast,
        ih (n / B) _ (index + 1) (by omega) (by rw [List.length_set]; omega),
        take_succ_set _ _ _ hidx, List.drop_set_of_lt _ _ (by omega)]
      simp only [List.map_cons, List.length_cons, List.append_assoc, List.singleton_append]
      have e : index + 1 + (Nat.digits B (n / B)).length =
          index + ((Nat.digits B (n / B)).length + 1) := by omega
      rw [e]

/-- The first loop of `printResult` stops at the first zero of the array. -/
theorem terminatorIndex_append (cs tail : List Int) : ∀ (i : Nat), (∀ x ∈ cs, x ≠ 0) →
    terminatorIndex (cs ++ 0 :: tail) i = Exec.done (i + cs.length) := by
  induction cs with
  | nil => intro i _; simp [terminatorIndex]
  | cons x xs ih =>
    intro i h
    have hx : x ≠ 0 := h x (List.mem_cons_self _ _)
    rw [List.cons_append, terminatorIndex, if_pos hx,
      ih (i + 1) (fun y hy => h y (List.mem_cons_of_mem _ hy)), List.length_cons]
    congr 1
    omega

/-- The second loop of `printResult` writes the elements below its start index, highest
index first. -/
theorem printBackwards_eq (l : List Int) : ∀ (k : Nat), k ≤ l.length →
    printBackwards l k = ((l.take k).reverse).map byteChar := by
  intro k
  induction k with
  | zero => intro _; simp [printBackwards]
  | succ k ih =>
    intro h
    have hk : k < l.length := by omega
    have ht : l.take (k + 1) = l.take k ++ [l[k]] := by
      rw [List.take_succ, List.getElem?_eq_getElem hk]
      rfl
    rw [printBackwards, ih (by omega), List.getD_eq_getElem l 0 hk, ht, List.reverse_append]
    rfl

/-- On an array that holds characters other than zero followed by a zero, `printResult`
prints those characters in reverse order and a newline. -/
theorem printResult_of_terminated (cs tail : List Int) (h : ∀ x ∈ cs, x ≠ 0) :
    printResult (cs ++ 0 :: tail) =
      Exec.done (String.mk ((cs.reverse).map byteChar ++ ['\n'])) := by
  rw [printResult, terminatorIndex_append cs tail 0 h]
  simp only [Exec.andThen, Nat.zero_add]
  rw [printBackwards_eq _ _ (by simp), List.take_left' rfl]

theorem toChar_digit (d : Nat) (h : d < 10) : toChar ((d : Int) + 48) = (d : Int) + 48 := by
  unfold toChar
  omega

theorem byteChar_digit (d : Nat) (h : d < 10) :
    byteChar ((d : Int) + 48) = Char.ofNat (48 + d) := by
  have e : ((d : Int) + 48) % 256 = ((48 + d : Nat) : Int) := by
    push_cast
    omega
  rw [byteChar, e, Int.toNat_natCast]

/-- For a base between 2 and 10 and a value below the 20th power of the base, the
conversion stores the digits of the value and `printResult` prints them, most significant
first, as the characters `'0'` plus the digit, followed by a newline. -/
theorem convert_and_print_digits (B v : Nat) (hB : 2 ≤ B) (hB10 : B ≤ 10)
    (hv : v < B ^ MAX_RESULT_SIZE) :
    ∃ buf, baseConverterHelper (B : Int) (v : Int) emptyResult = Exec.done buf ∧
      printResult buf = Exec.done
        (String.mk (((Nat.digits B v).reverse).map (fun d => Char.ofNat (48 + d)) ++
          ['\n'])) := by
  have hlen : (Nat.digits B v).length ≤ 20 := digits_length_le B hB 20 v hv
  have hd10 : ∀ d ∈ Nat.digits B v, d < 10 := fun d hd =>
    lt_of_lt_of_le (Nat.digits_lt_base (by omega) hd) hB10
  have hloop := baseConverterHelperLoop_digits B hB (emptyResult.length + 1) v emptyResult 0
    (by
      have : emptyResult.length = 21 := rfl
      omega)
    (by
      have : emptyResult.length = 21 := rfl
      omega)
  have hdrop : emptyResult.drop (0 + (Nat.digits B v).length) =
      0 :: List.replicate (20 - (Nat.digits B v).length) 0 := by
    rw [Nat.zero_add, emptyResult, List.drop_replicate, MAX_RESULT_SIZE]
    have e : 20 + 1 - (Nat.digits B v).length = (20 - (Nat.digits B v).length) + 1 := by
      omega
    rw [e, List.replicate_succ]
  rw [hdrop, List.take_zero, List.nil_append] at hloop
  refine ⟨_, hloop, ?_⟩
  rw [printResult_of_terminated]
  · congr 3
    rw [← List.map_reverse, List.map_map]
    apply List.map_congr_left
    intro d hd
    have h10 := hd10 d (List.mem_reverse.1 hd)
    simp only [Function.comp_apply]
    rw [toChar_digit d h10, byteChar_digit d h10]
  · intro x hx
    obtain ⟨d, hd, rfl⟩ := List.mem_map.1 hx
    rw [toChar_digit d (hd10 d hd)]
    omega

theorem numeralValueFrom_eq (b : Nat) (ds : List Nat) : ∀ (i : Nat),
    numeralValueFrom (b : Int) i ds = ((b ^ i * Nat.ofDigits b ds : Nat) : Int) := by
  induction ds with
  | nil => intro i; simp [numeralValueFrom, Nat.ofDigits]
  | cons d ds ih =>
    intro i
    rw [numeralValueFrom, ih (i + 1), Nat.ofDigits_cons]
    push_cast
    ring

/-- The value of a digit string in a base that is a natural number is the one Mathlib
gives it. -/
theorem numeralValue_eq (b : Nat) (ds : List Nat) :
    numeralValue (b : Int) ds = ((Nat.ofDigits b ds : Nat) : Int) := by
  simp [numeralValue, numeralValueFrom_eq]

/-- Where the array reaches, the conversion is correct: for `originalBase` and `newBase`
between 2 and 10 and a positive `int` whose decimal digits are all smaller than
`originalBase`, if the value of those digits read in `originalBase` is below the 20th
power of `newBase`, `main` prints a numeral and a newline and returns 0; the numeral is
not empty, its characters are `'0'` plus a digit smaller than `newBase`, the first one is
not `'0'`, and read in `newBase` it has the value the decimal digits of the number have in
`originalBase`.  The digits `ds` are given least significant first. -/
theorem conversion_correct_within_array (originalBase newBase number : Int)
    (ho : 2 ≤ originalBase ∧ originalBase ≤ 10) (hn : 2 ≤ newBase ∧ newBase ≤ 10)
    (hnum : 0 < number ∧ number ≤ INT_MAX)
    (hdig : ∀ d ∈ decimalDigits number, (d : Int) < originalBase)
    (hfit : numeralValue originalBase (decimalDigits number) < newBase ^ MAX_RESULT_SIZE) :
    ∃ ds : List Nat,
      main originalBase newBase number =
        Exec.done { stdout := String.mk ((ds.reverse).map (fun d => Char.ofNat (48 + d)) ++
                      ['\n']),
                    stderr := "", status := 0 } ∧
      ds ≠ [] ∧ (∀ d ∈ ds, (d : Int) < newBase) ∧ ds.getLast? ≠ some 0 ∧
      numeralValue newBase ds = numeralValue originalBase (decimalDigits number) := by
  obtain ⟨a, rfl⟩ := Int.eq_ofNat_of_zero_le (by omega : 0 ≤ originalBase)
  obtain ⟨B, rfl⟩ := Int.eq_ofNat_of_zero_le (by omega : 0 ≤ newBase)
  obtain ⟨n, rfl⟩ := Int.eq_ofNat_of_zero_le (by omega : 0 ≤ number)
  have ha : 2 ≤ a := by omega
  have hB : 2 ≤ B := by omega
  have hB10 : B ≤ 10 := by omega
  have hn0 : n ≠ 0 := by omega
  rw [decimalDigits_natCast] at hdig hfit ⊢
  rw [numeralValue_eq] at hfit ⊢
  have hdigN : ∀ d ∈ Nat.digits 10 n, d < a := fun d hd => by exact_mod_cast hdig d hd
  have hvle : Nat.ofDigits a (Nat.digits 10 n) ≤ n := by
    have h1 := Nat.ofDigits_monotone (Nat.digits 10 n) (by omega : a ≤ 10)
    rwa [Nat.ofDigits_digits] at h1
  have hround : Nat.digits a (Nat.ofDigits a (Nat.digits 10 n)) = Nat.digits 10 n :=
    Nat.digits_ofDigits a (by omega) _ hdigN (fun _ => Nat.getLast_digit_ne_zero 10 hn0)
  have hv0 : Nat.ofDigits a (Nat.digits 10 n) ≠ 0 := by
    intro h0
    rw [h0, Nat.digits_zero] at hround
    exact (Nat.digits_ne_nil_iff_ne_zero.2 hn0) hround.symm
  have hvfit : Nat.ofDigits a (Nat.digits 10 n) < B ^ MAX_RESULT_SIZE := by
    exact_mod_cast hfit
  -- the three calls of `main`
  have hcheck : checkInput (a : Int) (n : Int) = Exec.done 1 := by
    rw [checkInput_nonneg _ _ (by omega), decimalDigits_natCast, if_pos hdig]
  have hdec : decimalConverter (a : Int) (n : Int) =
      Exec.done ((Nat.ofDigits a (Nat.digits 10 n) : Nat) : Int) := by
    obtain ⟨r, hr, hmod, h1, h2⟩ := decimalConverter_modEq (a : Int) (n : Int) (by omega)
    rw [decimalDigits_natCast, numeralValue_eq] at hmod
    rw [hr, eq_of_modEq_inRange r _ hmod h1 h2 (by unfold INT_MIN; omega) (by omega)]
  obtain ⟨buf, hbuf, hprint⟩ := convert_and_print_digits B _ hB hB10 hvfit
  refine ⟨Nat.digits B (Nat.ofDigits a (Nat.digits 10 n)), ?_,
    Nat.digits_ne_nil_iff_ne_zero.2 hv0, ?_, ?_, ?_⟩
  · have hne : (n : Int) ≠ 0 := by exact_mod_cast hn0
    simp [main, hne, hcheck, baseConverter, hdec, hbuf, hprint, Exec.andThen, VALID_STATE]
  · intro d hd
    exact_mod_cast Nat.digits_lt_base (by omega : 1 < B) hd
  · rw [List.getLast?_eq_getLast _ (Nat.digits_ne_nil_iff_ne_zero.2 hv0)]
    intro h
    exact Nat.getLast_digit_ne_zero B hv0 (Option.some.inj h)
  · rw [numeralValue_eq, Nat.ofDigits_digits]

end ChangeBase
